import Mathlib

set_option maxHeartbeats 1000000
set_option maxRecDepth 8192

/-!
Shallow embedding of the tr utility (src/text/tr.rs): the operand data
model, the SET parser (escapes, bracket constructs, classes, equivalence
classes, repeats, ranges), the membership oracle, the transformation map
builder, the complement engine, the squeeze engine, and the execution
dispatcher, together with theorems checking the specification's claims.

Strings are modelled as `List Char` (Rust iterates Unicode scalar values);
usize arithmetic is modelled with `Nat` plus explicit bounds where the
source checks overflow or performs unchecked subtraction.
-/

/-- Largest value of the 64-bit usize type. -/
def USIZE_MAX : Nat := 2 ^ 64 - 1

/-- Largest value of the 32-bit u32 type. -/
def U32_MAX : Nat := 2 ^ 32 - 1

/-- Wrapping decrement-by-one of a usize value, as performed by the
unchecked subtraction `(*mut_ref) - 1_usize` in complement_chars
(release-mode Rust semantics: underflow wraps modulo 2^64). -/
def usizeSub1 (n : Nat) : Nat := (n + USIZE_MAX) % (USIZE_MAX + 1)

/-- CharRepetition from the source: a fixed repeat count or the
"as many as needed" marker of the `[c*]` construct. -/
inductive CharRepetition where
  | AsManyAsNeeded : CharRepetition
  | N : Nat → CharRepetition
  deriving DecidableEq, Repr

/-- The Char struct of the source (a character with its repetition),
renamed TrChar because `Char` is the Lean character type. -/
structure TrChar where
  char : Char
  char_repetition : CharRepetition
  deriving DecidableEq, Repr

/-- The Equiv struct of the source (an equivalence-class character),
renamed TrEquiv to avoid clashing with Mathlib's `Equiv`. -/
structure TrEquiv where
  char : Char
  deriving DecidableEq, Repr

/-- The Operand enum of the source: either a Char or an Equiv. -/
inductive Operand where
  | Char : TrChar → Operand
  | Equiv : TrEquiv → Operand
  deriving DecidableEq, Repr

/-- Modelled from the spec: the external deunicode crate's `deunicode_char`
(the Unicode-to-ASCII transliteration the Membership Oracle uses for
equivalence classes; the source only calls it, the crate is not in src/).
ASCII characters transliterate to themselves; other characters are
modelled as having no transliteration. No claim evaluates this function
on a character where the model could diverge from the crate. -/
def deunicode_char (c : Char) : Option String :=
  if c.toNat < 128 then some (String.mk [c]) else none

/-- compare_deunicoded_chars from the source: equality of the two
normalized characters. -/
def compare_deunicoded_chars (char1 char2 : Char) : Bool :=
  deunicode_char char1 == deunicode_char char2

/-- Operand::contains from the source (named operandsContains because the
dotted name would resolve `Char` to the Operand constructor): linear scan,
Equiv operands match via deunicode comparison, Char operands via exact
equality. -/
def operandsContains (operands : List Operand) (target : Char) : Bool :=
  match operands with
  | [] => false
  | Operand.Equiv eqv :: rest =>
    if compare_deunicoded_chars eqv.char target then true
    else operandsContains rest target
  | Operand.Char ch :: rest =>
    if ch.char == target then true
    else operandsContains rest target

/-- Value of an ASCII decimal digit character if it is a digit below the
radix (radix at most 10, the only radixes the source uses). -/
def digitVal (radix : Nat) (c : Char) : Option Nat :=
  if 48 ≤ c.toNat ∧ c.toNat ≤ 57 ∧ c.toNat - 48 < radix then
    some (c.toNat - 48)
  else none

/-- Accumulating digit parse for from_str_radix. -/
def parseDigitsGo (radix : Nat) (acc : Nat) : List Char → Option Nat
  | [] => some acc
  | c :: rest =>
    match digitVal radix c with
    | none => none
    | some d => parseDigitsGo radix (acc * radix + d) rest

/-- Rust's `from_str_radix` for an unsigned integer type with maximum
value `maxVal`: an optional leading `+`, then one or more digits of the
radix; fails on empty digits, an invalid digit, or overflow. -/
def parseUIntRadix (radix maxVal : Nat) (s : List Char) : Option Nat :=
  let body := match s with
    | '+' :: rest => rest
    | _ => s
  match body with
  | [] => none
  | _ =>
    match parseDigitsGo radix 0 body with
    | none => none
    | some v => if v ≤ maxVal then some v else none

/-- Whether a character is an octal digit `0`-`7`. -/
def isOctalDigit (c : Char) : Bool := 48 ≤ c.toNat && c.toNat ≤ 55

/-- Base-8 value of a list of octal digit characters. -/
def octalValue (digits : List Char) : Nat :=
  digits.foldl (fun acc c => acc * 8 + (c.toNat - 48)) 0

/-- Helper building a `Literal{c, Fixed(1)}` operand. -/
def lit1 (c : Char) : Operand :=
  Operand.Char { char := c, char_repetition := CharRepetition.N 1 }

/-- parse_equiv from the source, applied to the collected bracket run
(which starts with `[=`): the characters strictly between the two `=`
delimiters each become one Equiv operand; an empty body, a missing second
`=`, and a missing closing `]` are distinct errors. The final case models
the source's assertion that the run starts with `[=` (guaranteed by the
caller). -/
def parse_equiv (vec : List Char) : Except String (List Operand) :=
  match vec with
  | '[' :: '=' :: rest =>
    let equiv := rest.takeWhile (fun c => c ≠ '=')
    let after := rest.dropWhile (fun c => c ≠ '=')
    if equiv.isEmpty then
      Except.error "Error: Missing equiv symbol after '[='"
    else
      match after with
      | '=' :: after2 =>
        match after2 with
        | ']' :: _ => Except.ok (equiv.map (fun c => Operand.Equiv { char := c }))
        | _ => Except.error "Error: Missing closing ']' for '[=equiv=]'"
      | _ => Except.error "Error: Missing '=' before ']' for '[=equiv=]'"
  | _ => Except.error "tr: internal error: malformed equivalence construct"

/-- parse_repeated_char from the source, applied to the collected bracket
run `[c*n]`: empty count or value zero mean AsManyAsNeeded; a leading `0`
selects octal, otherwise decimal; unparsable text is the invalid repeat
count error. The internal-error cases model the source's assertions that
the run has shape `[`, char, `*`, ... , final `]` (guaranteed by the
caller). -/
def parse_repeated_char (vec : List Char) : Except String Operand :=
  match vec with
  | '[' :: c :: '*' :: rest =>
    let repeat_string := rest.takeWhile (fun x => x ≠ ']')
    match rest.dropWhile (fun x => x ≠ ']') with
    | [']'] =>
      match repeat_string with
      | [] => Except.ok (Operand.Char { char := c, char_repetition := CharRepetition.AsManyAsNeeded })
      | st =>
        let radix := if st.head? = some '0' then 8 else 10
        match parseUIntRadix radix USIZE_MAX st with
        | some 0 => Except.ok (Operand.Char { char := c, char_repetition := CharRepetition.AsManyAsNeeded })
        | some n => Except.ok (Operand.Char { char := c, char_repetition := CharRepetition.N n })
        | none =>
          Except.error ("tr: invalid repeat count ‘" ++ String.mk st ++ "’ in [c*n] construct")
    | _ => Except.error "tr: internal error: malformed repeat construct"
  | _ => Except.error "tr: internal error: malformed repeat construct"

/-- The contiguous list of characters with code points `lo` to `hi`
inclusive (skipping invalid scalar values, as Rust's char ranges and
char::from_u32 do). -/
def charsInRange (lo hi : Nat) : List Char :=
  (List.range' lo (hi + 1 - lo)).filterMap
    (fun n => if _h : n.isValidChar then some (Char.ofNat n) else none)

/-- expand_character_class from the source: fixed ASCII tables for the
named POSIX classes, each expanded character becoming a
`Literal{c, Fixed(1)}` operand; unknown names are an error. -/
def expand_character_class (cls : List Char) : Except String (List Operand) :=
  let s := String.mk cls
  let char_vec : Except String (List Char) :=
    if s = "alnum" then
      Except.ok (charsInRange 48 57 ++ charsInRange 65 90 ++ charsInRange 97 122)
    else if s = "alpha" then
      Except.ok (charsInRange 65 90 ++ charsInRange 97 122)
    else if s = "digit" then Except.ok (charsInRange 48 57)
    else if s = "lower" then Except.ok (charsInRange 97 122)
    else if s = "upper" then Except.ok (charsInRange 65 90)
    else if s = "space" then Except.ok [' ', '\t', '\n', '\r', '\x0b', '\x0c']
    else if s = "blank" then Except.ok [' ', '\t']
    else if s = "cntrl" then Except.ok (charsInRange 0 31 ++ [Char.ofNat 127])
    else if s = "graph" then Except.ok (charsInRange 33 126)
    else if s = "print" then Except.ok (charsInRange 32 126)
    else if s = "punct" then
      Except.ok (charsInRange 33 47 ++ charsInRange 58 64 ++ charsInRange 91 96 ++ charsInRange 123 126)
    else if s = "xdigit" then
      Except.ok (charsInRange 48 57 ++ charsInRange 65 70 ++ charsInRange 97 102)
    else Except.error "Error: Invalid class name "
  match char_vec with
  | Except.error e => Except.error e
  | Except.ok chars => Except.ok (chars.map lit1)

/-- parse_octal from the source: base-8 u32 parse of the digits, then
conversion to a character (None when the value is not a valid scalar). -/
def parse_octal (s : List Char) : Option Char :=
  match parseUIntRadix 8 U32_MAX s with
  | none => none
  | some n => if _h : n.isValidChar then some (Char.ofNat n) else none

/-- Whether a character is `[` or `]` (for trim_matches in parse_ranges). -/
def isBracketChar (c : Char) : Bool := c == '[' || c == ']'

/-- The square brackets stripped from both ends of the string, as
`trim_matches` does in parse_ranges. -/
def trimBrackets (s : List Char) : List Char :=
  ((s.dropWhile isBracketChar).reverse.dropWhile isBracketChar).reverse

/-- parse_ranges from the source: strip enclosing brackets, split on `-`,
then either expand a `\octal-\octal` range (silently empty when a
boundary fails to decode), or a `c-c` range of plain characters; a
mixed pair yields no characters. Each produced character is a
`Literal{c, Fixed(1)}` operand. -/
def parse_ranges (s : List Char) : Except String (List Operand) :=
  let trimmed := trimBrackets s
  let start := trimmed.takeWhile (fun c => c ≠ '-')
  match trimmed.dropWhile (fun c => c ≠ '-') with
  | [] => Except.error "Iteration failed"
  | _ :: afterDash =>
    let endPart := afterDash.takeWhile (fun c => c ≠ '-')
    if start.head? == some '\\' && endPart.head? == some '\\' then
      match parse_octal (start.drop 1), parse_octal (endPart.drop 1) with
      | some start_char, some end_char =>
        Except.ok ((charsInRange start_char.toNat end_char.toNat).map lit1)
      | _, _ => Except.ok []
    else if !(start.head? == some '\\') && !(endPart.head? == some '\\') then
      match start.head?, endPart.head? with
      | some start_char, some end_char =>
        Except.ok ((charsInRange start_char.toNat end_char.toNat).map lit1)
      | _, _ => Except.error "panic: called Option::unwrap on a None value"
    else Except.ok []

/-- Whether a character belongs to the `[a-zA-Z0-9\\]` class of the
range-detection regular expression. -/
def isRangeClassChar (c : Char) : Bool := c.isAlpha || c.isDigit || c == '\\'

/-- Whether a character belongs to `[a-zA-Z0-9]`. -/
def isAlnumAscii (c : Char) : Bool := c.isAlpha || c.isDigit

/-- First alternative of the range regular expression: the whole string is
a bracketed range of class characters, with a single `-` between two
nonempty runs. The character class excludes `-`, `[` and `]`, so the
regular expression's match is exactly this deterministic split. -/
def matchesBracketRange (s : List Char) : Bool :=
  match s with
  | '[' :: rest =>
    let p := rest.takeWhile isRangeClassChar
    match rest.dropWhile isRangeClassChar with
    | '-' :: r2 =>
      let q := r2.takeWhile isRangeClassChar
      !p.isEmpty && !q.isEmpty && (r2.dropWhile isRangeClassChar == [']'])
    | _ => false
  | _ => false

/-- Second alternative of the range regular expression: the whole string
is `\ddd-\ddd` with one to three octal digits on each side. -/
def matchesOctalRange (s : List Char) : Bool :=
  match s with
  | '\\' :: rest =>
    let d1 := rest.takeWhile isOctalDigit
    match rest.dropWhile isOctalDigit with
    | '-' :: '\\' :: r2 =>
      let d2 := r2.takeWhile isOctalDigit
      decide (1 ≤ d1.length) && decide (d1.length ≤ 3) &&
        decide (1 ≤ d2.length) && decide (d2.length ≤ 3) &&
        (r2.dropWhile isOctalDigit).isEmpty
    | _ => false
  | _ => false

/-- Third alternative of the range regular expression: the whole string is
a bare single-character pair `c-c` over `[a-zA-Z0-9]`. -/
def matchesCharPair (s : List Char) : Bool :=
  match s with
  | [a, '-', b] => isAlnumAscii a && isAlnumAscii b
  | _ => false

/-- contains_single_range from the source: the anchored three-alternative
regular expression deciding whether the whole SET string is
range-shorthand. -/
def contains_single_range (s : List Char) : Bool :=
  matchesBracketRange s || matchesOctalRange s || matchesCharPair s

/-- The named-escape table of parse_symbols: the character produced for a
character following a backslash when it is not an octal digit. -/
def escapeChar (c : Char) : Char :=
  if c = 'a' then '\x07'
  else if c = 'b' then '\x08'
  else if c = 't' then '\x09'
  else if c = 'n' then '\x0a'
  else if c = 'v' then '\x0b'
  else if c = 'f' then '\x0c'
  else if c = 'r' then '\x0d'
  else if c = '\\' then '\\'
  else c

/-- The bracket-run collection loop of parse_symbols: push characters
(starting with the `[` itself, already in `acc`) until a `]` is found
once more than three characters have been collected; returns the
collected run, the remaining characters, and whether the closing bracket
was found. -/
def collectBracket (acc : List Char) (l : List Char) :
    List Char × List Char × Bool :=
  match l with
  | [] => (acc, [], false)
  | c :: rest =>
    if c = ']' ∧ acc.length + 1 > 3 then (acc ++ [c], rest, true)
    else collectBracket (acc ++ [c]) rest

/-- The dispatch on a collected bracket run in parse_symbols: the
`[:class:]`, `[=equiv=]` and `[c*n]` constructs when the closing bracket
was found and the delimiters match, and otherwise (also when no closing
bracket was found) every collected character as a `Literal{c, Fixed(1)}`
operand. -/
def parseBracketOps (vec : List Char) (found : Bool) : Except String (List Operand) :=
  if found then
    if vec[1]? == some ':' && vec.reverse[1]? == some ':' then
      expand_character_class ((vec.drop 2).dropLast.dropLast)
    else if vec[1]? == some '=' && vec.reverse[1]? == some '=' then
      parse_equiv vec
    else if vec[2]? == some '*' then
      match parse_repeated_char vec with
      | Except.error e => Except.error e
      | Except.ok op => Except.ok [op]
    else Except.ok (vec.map lit1)
  else Except.ok (vec.map lit1)

/-- parse_symbols from the source, with an explicit fuel argument to make
the recursion structural (each loop iteration consumes at least one
character, so any fuel above the string length behaves identically; the
wrapper parse_symbols supplies such fuel): the left-to-right loop over
the SET string handling bracket constructs (`[:class:]`, `[=equiv=]`,
`[c*n]`, with fallback to literal characters), backslash escapes (octal
runs, named escapes, ignored backslash, trailing backslash), and plain
characters, each plain character becoming `Literal{c, Fixed(1)}`. -/
def parse_symbols_fuel : Nat → List Char → Except String (List Operand)
  | 0, _ => Except.error "tr: internal error: parser fuel exhausted"
  | _ + 1, [] => Except.ok []
  | fuel + 1, c :: rest =>
    if c = '[' then
      let res := collectBracket ['['] rest
      let remaining := res.2.1
      match parseBracketOps res.1 res.2.2 with
      | Except.error e => Except.error e
      | Except.ok ops =>
        match parse_symbols_fuel fuel remaining with
        | Except.error e => Except.error e
        | Except.ok tail => Except.ok (ops ++ tail)
    else if c = '\\' then
      match rest with
      | [] =>
        -- the source prints a non-fatal warning to stderr here
        Except.ok [lit1 '\\']
      | c2 :: rest2 =>
        if isOctalDigit c2 then
          let moreDigits := (rest2.takeWhile isOctalDigit).take 2
          let digits := c2 :: moreDigits
          let rest3 := rest2.drop moreDigits.length
          let value := octalValue digits
          if value ≤ 255 then
            match parse_symbols_fuel fuel rest3 with
            | Except.error e => Except.error e
            | Except.ok tail => Except.ok (lit1 (Char.ofNat value) :: tail)
          else
            Except.error ("tr: invalid octal sequence '" ++ String.mk digits ++
              "' (out of range integral type conversion attempted)")
        else
          match parse_symbols_fuel fuel rest2 with
          | Except.error e => Except.error e
          | Except.ok tail => Except.ok (lit1 (escapeChar c2) :: tail)
    else
      match parse_symbols_fuel fuel rest with
      | Except.error e => Except.error e
      | Except.ok tail => Except.ok (lit1 c :: tail)

/-- parse_symbols with sufficient fuel (one more than the string length;
each loop iteration consumes at least one character). -/
def parse_symbols (l : List Char) : Except String (List Operand) :=
  parse_symbols_fuel (l.length + 1) l

/-- parse_string1_or_string2 from the source: whole-string range
shorthand is handled by parse_ranges, everything else by parse_symbols. -/
def parse_string1_or_string2 (s : List Char) : Except String (List Operand) :=
  if contains_single_range s then parse_ranges s else parse_symbols s

/-- State of the complement engine scan: per-operand depletion counters
and the current set2 cursor (chars2_index in the source). -/
structure ComplState where
  depleted : List Nat
  idx : Nat
  deriving DecidableEq, Repr

/-- Initial depletion counters of complement_chars: the fixed count for a
finite Literal, usize::MAX for AsManyAsNeeded Literals and for Equiv
operands. -/
def initialDepleted (chars2 : List Operand) : List Nat :=
  chars2.map (fun op =>
    match op with
    | Operand.Char { char := _, char_repetition := CharRepetition.N n } => n
    | _ => USIZE_MAX)

/-- The body of complement_chars' scan for one input character: members
of chars1 pass through unchanged; otherwise the character of the current
set2 operand is emitted, a Char operand's counter is decremented (with
the source's unchecked, wrapping subtraction) and the cursor advances
when the counter reaches zero, while an Equiv operand's counter is left
alone and the cursor always advances; on wrapping past the end of set2
the cursor resets to zero and all counters are restored. -/
def complementStep (chars1 chars2 : List Operand) (depleted0 : List Nat)
    (st : ComplState) (ch : Char) : Except String (ComplState × Char) :=
  if operandsContains chars1 ch then Except.ok (st, ch)
  else
    match chars2[st.idx]? with
    | none => Except.error "Indexing failed"
    | some (Operand.Char c) =>
      match st.depleted[st.idx]? with
      | none => Except.error "Indexing failed"
      | some cnt =>
        let decremented := usizeSub1 cnt
        let depleted2 := st.depleted.set st.idx decremented
        if decremented > 0 then
          Except.ok ({ depleted := depleted2, idx := st.idx }, c.char)
        else if st.idx + 1 ≥ chars2.length then
          Except.ok ({ depleted := depleted0, idx := 0 }, c.char)
        else
          Except.ok ({ depleted := depleted2, idx := st.idx + 1 }, c.char)
    | some (Operand.Equiv eqv) =>
      if st.idx + 1 ≥ chars2.length then
        Except.ok ({ depleted := depleted0, idx := 0 }, eqv.char)
      else
        Except.ok ({ depleted := st.depleted, idx := st.idx + 1 }, eqv.char)

/-- The input scan of complement_chars, one complementStep per input
character. -/
def complementGo (chars1 chars2 : List Operand) (depleted0 : List Nat) :
    List Char → ComplState → Except String (List Char)
  | [], _ => Except.ok []
  | ch :: rest, st =>
    match complementStep chars1 chars2 depleted0 st ch with
    | Except.error e => Except.error e
    | Except.ok (st2, out) =>
      match complementGo chars1 chars2 depleted0 rest st2 with
      | Except.error e => Except.error e
      | Except.ok tail => Except.ok (out :: tail)

/-- complement_chars from the source. -/
def complement_chars (input : List Char) (chars1 chars2 : List Operand) :
    Except String (List Char) :=
  complementGo chars1 chars2 (initialDepleted chars2) input
    { depleted := initialDepleted chars2, idx := 0 }

/-- Checked variant of complementStep whose counter decrement fails on
underflow instead of wrapping; used to state that the source's unchecked
decrement never underflows on parser-produced sets. -/
def complementStepChecked (chars1 chars2 : List Operand) (depleted0 : List Nat)
    (st : ComplState) (ch : Char) : Except String (ComplState × Char) :=
  if operandsContains chars1 ch then Except.ok (st, ch)
  else
    match chars2[st.idx]? with
    | none => Except.error "Indexing failed"
    | some (Operand.Char c) =>
      match st.depleted[st.idx]? with
      | none => Except.error "Indexing failed"
      | some cnt =>
        if cnt = 0 then Except.error "usize underflow"
        else
          let decremented := cnt - 1
          let depleted2 := st.depleted.set st.idx decremented
          if decremented > 0 then
            Except.ok ({ depleted := depleted2, idx := st.idx }, c.char)
          else if st.idx + 1 ≥ chars2.length then
            Except.ok ({ depleted := depleted0, idx := 0 }, c.char)
          else
            Except.ok ({ depleted := depleted2, idx := st.idx + 1 }, c.char)
    | some (Operand.Equiv eqv) =>
      if st.idx + 1 ≥ chars2.length then
        Except.ok ({ depleted := depleted0, idx := 0 }, eqv.char)
      else
        Except.ok ({ depleted := st.depleted, idx := st.idx + 1 }, eqv.char)

/-- The input scan of the checked complement variant. -/
def complementGoChecked (chars1 chars2 : List Operand) (depleted0 : List Nat) :
    List Char → ComplState → Except String (List Char)
  | [], _ => Except.ok []
  | ch :: rest, st =>
    match complementStepChecked chars1 chars2 depleted0 st ch with
    | Except.error e => Except.error e
    | Except.ok (st2, out) =>
      match complementGoChecked chars1 chars2 depleted0 rest st2 with
      | Except.error e => Except.error e
      | Except.ok tail => Except.ok (out :: tail)

/-- Checked variant of complement_chars (decrement fails on underflow). -/
def complement_chars_checked (input : List Char) (chars1 chars2 : List Operand) :
    Except String (List Char) :=
  complementGoChecked chars1 chars2 (initialDepleted chars2) input
    { depleted := initialDepleted chars2, idx := 0 }

/-- check_repeatable from the source: a character is dropped only when
its input-wide count exceeds one, it is a member of set2, and it was
already seen; the seen set is threaded explicitly. -/
def check_repeatable (ch : Char) (char_count : Nat) (seen : List Char)
    (set2 : List Operand) : Bool × List Char :=
  if char_count > 1 && operandsContains set2 ch then
    if seen.contains ch then (false, seen)
    else (true, ch :: seen)
  else (true, seen)

/-- The squeeze filter loop of tr's two check_repeatable squeeze sites
(the delete branch, tr.rs:1024-1045, and the translate post-pass,
tr.rs:1134-1155): filter by check_repeatable with counts taken over
fullText. Those sites count into a `HashMap<char, usize>`; Nat is exact
for them because a Rust string holds fewer than 2^63 characters, so the
usize histogram cannot wrap. The squeeze-only branch counts into an
`i32` instead and is modelled separately by squeeze_filter_i32. -/
def squeezeLoop (fullText : List Char) (refset : List Operand)
    (seen : List Char) : List Char → List Char
  | [] => []
  | ch :: rest =>
    match check_repeatable ch (fullText.count ch) seen refset with
    | (true, seen2) => ch :: squeezeLoop fullText refset seen2 rest
    | (false, seen2) => squeezeLoop fullText refset seen2 rest

/-- The squeeze engine of the two usize-count squeeze sites: one pass
over text with counts precomputed over the same text. -/
def squeeze_filter (text : List Char) (refset : List Operand) : List Char :=
  squeezeLoop text refset [] text

/-- Specification-side squeeze, written from the spec's words: keep a
character unless its input-wide count exceeds one, it is a member of the
reference set, and an earlier occurrence exists in the already-scanned
prefix (first occurrence across the whole text is kept). -/
def squeezeSpecLoop (fullText : List Char) (refset : List Operand)
    (prefixAcc : List Char) : List Char → List Char
  | [] => []
  | ch :: rest =>
    if fullText.count ch > 1 && operandsContains refset ch && prefixAcc.contains ch then
      squeezeSpecLoop fullText refset (prefixAcc ++ [ch]) rest
    else
      ch :: squeezeSpecLoop fullText refset (prefixAcc ++ [ch]) rest

/-- Specification-side squeeze over a whole text. -/
def squeezeSpec (text : List Char) (refset : List Operand) : List Char :=
  squeezeSpecLoop text refset [] text

/-- The two's-complement value of the squeeze-only branch's `i32`
occurrence counter (tr.rs:1051) after n wrapping increments of 1 from
zero: n reduced modulo 2^32 and interpreted signed (release-mode Rust
semantics, where integer overflow wraps). -/
def i32OfNat (n : Nat) : Int :=
  let low : Nat := n % 2 ^ 32
  if low < 2 ^ 31 then (low : Int) else (low : Int) - 2 ^ 32

/-- The squeeze filter loop of the squeeze-only branch (tr.rs:1050-1074):
the same seen-set filter, but the precomputed histogram holds wrapping
`i32` counts, so the `char_counts[&ch] > 1` test is a signed comparison
on the wrapped value. -/
def squeezeLoopI32 (fullText : List Char) (refset : List Operand)
    (seen : List Char) : List Char → List Char
  | [] => []
  | ch :: rest =>
    if i32OfNat (fullText.count ch) > 1 && operandsContains refset ch then
      if seen.contains ch then squeezeLoopI32 fullText refset seen rest
      else ch :: squeezeLoopI32 fullText refset (ch :: seen) rest
    else ch :: squeezeLoopI32 fullText refset seen rest

/-- The squeeze engine of the squeeze-only branch: one pass over text
with wrapping i32 counts precomputed over the same text. -/
def squeeze_filter_i32 (text : List Char) (refset : List Operand) : List Char :=
  squeezeLoopI32 text refset [] text

/-- Rust's checked_add on usize. -/
def checkedAdd (a b : Nat) : Option Nat :=
  if a + b ≤ USIZE_MAX then some (a + b) else none

/-- The string1 flattening loop of generate_transformation_hash_map:
each `Literal{c, Fixed(n)}` contributes n copies of c and n to the
running total (overflow-checked); AsManyAsNeeded in string1 and Equiv
operands are fatal. -/
def flattenSet1Go : List Operand → Nat → List Char → Except String (Nat × List Char)
  | [], total, acc => Except.ok (total, acc)
  | Operand.Char { char := _, char_repetition := CharRepetition.AsManyAsNeeded } :: _, _, _ =>
    Except.error "tr: the [c*] repeat construct may not appear in string1"
  | Operand.Char { char := c, char_repetition := CharRepetition.N n } :: rest, total, acc =>
    match checkedAdd total n with
    | none => Except.error "Arithmetic overflow"
    | some t => flattenSet1Go rest t (acc ++ List.replicate n c)
  | Operand.Equiv _ :: _, _, _ => Except.error "Expectation violated"

/-- The string2 scanning loop of generate_transformation_hash_map: finds
the index of at most one AsManyAsNeeded operand (a second is fatal) and
sums the fixed counts (overflow-checked); Equiv operands are fatal. -/
def scanSet2 : List Operand → Option Nat → Nat → Nat → Except String (Option Nat × Nat)
  | [], amanIdx, total, _ => Except.ok (amanIdx, total)
  | Operand.Char { char := _, char_repetition := CharRepetition.AsManyAsNeeded } :: rest, amanIdx, total, us =>
    if amanIdx.isSome then
      Except.error "tr: only one [c*] repeat construct may appear in string2"
    else scanSet2 rest (some us) total (us + 1)
  | Operand.Char { char := _, char_repetition := CharRepetition.N n } :: rest, amanIdx, total, us =>
    match checkedAdd total n with
    | none => Except.error "Arithmetic overflow"
    | some t => scanSet2 rest amanIdx t (us + 1)
  | Operand.Equiv _ :: _, _, _, _ => Except.error "Expectation violated"

/-- The string2 extension of generate_transformation_hash_map when its
fixed length falls short of string1's flattened length: the
AsManyAsNeeded operand's count becomes exactly the leftover, or, absent
one, the leftover is added to the last operand's fixed count. -/
def extendSet2 (string2_operands : List Operand) (amanIdx : Option Nat)
    (leftover : Nat) : Except String (List Operand) :=
  match amanIdx with
  | some us =>
    match string2_operands[us]? with
    | none => Except.error "Indexing failed"
    | some (Operand.Char ch) =>
      Except.ok (string2_operands.set us
        (Operand.Char { char := ch.char, char_repetition := CharRepetition.N leftover }))
    | some (Operand.Equiv _) => Except.error "Expectation violated"
  | none =>
    match string2_operands.getLast? with
    | none => Except.error "Unexpected empty collection"
    | some (Operand.Char { char := c, char_repetition := CharRepetition.N n }) =>
      match checkedAdd n leftover with
      | none => Except.error "Arithmetic overflow"
      | some t =>
        Except.ok (string2_operands.set (string2_operands.length - 1)
          (Operand.Char { char := c, char_repetition := CharRepetition.N t }))
    | some (Operand.Char { char := _, char_repetition := CharRepetition.AsManyAsNeeded }) =>
      Except.error "Expectation violated"
    | some (Operand.Equiv _) => Except.error "Expectation violated"

/-- The string2 flattening loop: fixed Literals expand, a leftover
AsManyAsNeeded marker contributes nothing, Equiv operands are fatal. -/
def flattenSet2Go : List Operand → List Char → Except String (List Char)
  | [], acc => Except.ok acc
  | Operand.Char { char := c, char_repetition := CharRepetition.N n } :: rest, acc =>
    flattenSet2Go rest (acc ++ List.replicate n c)
  | Operand.Char { char := _, char_repetition := CharRepetition.AsManyAsNeeded } :: rest, acc =>
    flattenSet2Go rest acc
  | Operand.Equiv _ :: _, _ => Except.error "Expectation violated"

/-- Lookup in the translation map model (an insertion list where the most
recent insertion for a key is found first, matching HashMap overwrite). -/
def hmGet (m : List (Char × Char)) (k : Char) : Option Char :=
  match m.find? (fun p => p.1 == k) with
  | some p => some p.2
  | none => none

/-- The positional map construction loop: the i-th flattened string1
character maps to the i-th flattened string2 character, later insertions
overwriting earlier ones; a missing string2 position is an indexing
error. -/
def buildTranslationMap : List Char → List Char → Nat → List (Char × Char) →
    Except String (List (Char × Char))
  | [], _, _, m => Except.ok m
  | c :: rest, flat2, us, m =>
    match flat2[us]? with
    | none => Except.error "Indexing failed"
    | some cha => buildTranslationMap rest flat2 (us + 1) ((c, cha) :: m)

/-- generate_transformation_hash_map from the source, assembled from the
loops above (the source's checked_sub for the leftover is guarded by the
comparison and cannot fail, so it is a plain subtraction here). -/
def generate_transformation_hash_map (string1_operands string2_operands : List Operand) :
    Except String (List (Char × Char)) :=
  match flattenSet1Go string1_operands 0 [] with
  | Except.error e => Except.error e
  | Except.ok (char_repeating_total, string1_flattened) =>
    match scanSet2 string2_operands none 0 0 with
    | Except.error e => Except.error e
    | Except.ok (as_many_as_needed_index, replacement_total) =>
      let extended : Except String (List Operand) :=
        if replacement_total < char_repeating_total then
          extendSet2 string2_operands as_many_as_needed_index
            (char_repeating_total - replacement_total)
        else Except.ok string2_operands
      match extended with
      | Except.error e => Except.error e
      | Except.ok string2_operands_to_use =>
        match flattenSet2Go string2_operands_to_use [] with
        | Except.error e => Except.error e
        | Except.ok string2_flattened =>
          buildTranslationMap string1_flattened string2_flattened 0 []

/-- The stored character of an operand, the sort key of the source's
sort_by comparator (all four arms compare the chars). -/
def opChar : Operand → Char
  | Operand.Char ch => ch.char
  | Operand.Equiv eqv => eqv.char

/-- Stable insertion used to model Vec::sort_by (a stable sort) with the
source's by-character comparator. -/
def insertOperand (a : Operand) : List Operand → List Operand
  | [] => [a]
  | b :: rest =>
    if opChar b < opChar a then b :: insertOperand a rest else a :: b :: rest

/-- Stable by-character sort of set2 used in value-complement mode. -/
def sortOperands (l : List Operand) : List Operand := l.foldr insertOperand []

/-- The validated flag set the dispatcher receives. -/
structure Flags where
  delete : Bool
  squeeze_repeats : Bool
  complement_val : Bool
  complement_char : Bool
  deriving DecidableEq, Repr

/-- The tr execution dispatcher (the pure core of `fn tr`): parses the
one or two SET strings, then selects delete, squeeze-only, complement or
translate processing and optional squeezing, producing the entire output
or the first error; panics of the source (unwraps on a missing SET2) are
modelled as errors. -/
def tr_core (args : Flags) (string1 : List Char) (string2 : Option (List Char))
    (input : List Char) : Except String (List Char) :=
  match parse_string1_or_string2 string1 with
  | Except.error e => Except.error e
  | Except.ok string1_operands =>
    match (match string2 with
           | some st =>
             match parse_string1_or_string2 st with
             | Except.error e => Except.error e
             | Except.ok ops => Except.ok (some ops)
           | none => Except.ok none : Except String (Option (List Operand))) with
    | Except.error e => Except.error e
    | Except.ok string2_operands_option =>
      if args.delete then
        let filtered_string :=
          if args.complement_char || args.complement_val then
            input.filter (fun c => operandsContains string1_operands c)
          else
            input.filter (fun c => !operandsContains string1_operands c)
        let filtered_string_to_use :=
          match string2_operands_option with
          | some ops2 =>
            if args.squeeze_repeats then squeeze_filter filtered_string ops2
            else filtered_string
          | none => filtered_string
        Except.ok filtered_string_to_use
      else if args.squeeze_repeats && string2_operands_option.isNone then
        Except.ok (squeeze_filter_i32 input string1_operands)
      else
        let result_string : Except String (List Char) :=
          if args.complement_char || args.complement_val then
            match string2_operands_option with
            | none => Except.error "panic: called Option::unwrap on a None value"
            | some ops2 =>
              if args.complement_char then
                complement_chars input string1_operands ops2
              else
                complement_chars input string1_operands (sortOperands ops2)
          else
            match string2_operands_option with
            | none => Except.error "tr: missing operand"
            | some string2_operands =>
              if string2_operands.isEmpty then
                Except.error "tr: when not truncating set1, string2 must be non-empty"
              else
                match generate_transformation_hash_map string1_operands string2_operands with
                | Except.error e => Except.error e
                | Except.ok transformation_map =>
                  Except.ok (input.map (fun ch =>
                    match hmGet transformation_map ch with
                    | some cha => cha
                    | none => ch))
        match result_string with
        | Except.error e => Except.error e
        | Except.ok result =>
          if args.squeeze_repeats then
            match string2_operands_option with
            | none => Except.error "panic: called Option::unwrap on a None value"
            | some ops2 => Except.ok (squeeze_filter result ops2)
          else Except.ok result

/-- Whether an operand is a Char with the AsManyAsNeeded repetition. -/
def isAmanChar : Operand → Bool
  | Operand.Char { char := _, char_repetition := CharRepetition.AsManyAsNeeded } => true
  | _ => false

/-- Whether an operand is a Char with a fixed repetition. -/
def isFixedChar : Operand → Bool
  | Operand.Char { char := _, char_repetition := CharRepetition.N _ } => true
  | _ => false

/-- Whether an operand is a Char (of either repetition). -/
def isCharOperand : Operand → Bool
  | Operand.Char _ => true
  | Operand.Equiv _ => false

/-- Number of AsManyAsNeeded operands in a set. -/
def amanCount : List Operand → Nat
  | [] => 0
  | op :: rest => (if isAmanChar op then 1 else 0) + amanCount rest

/-- Sum of the fixed repetition counts of a set (AsManyAsNeeded and Equiv
operands contribute nothing). -/
def sumFixed : List Operand → Nat
  | [] => 0
  | Operand.Char { char := _, char_repetition := CharRepetition.N n } :: rest => n + sumFixed rest
  | _ :: rest => sumFixed rest

/-- Well-formedness of a parser-produced operand: a fixed repetition is
at least 1 and fits in usize (Equiv and AsManyAsNeeded operands carry no
counter precondition). -/
def operandWF : Operand → Bool
  | Operand.Char { char := _, char_repetition := CharRepetition.N n } =>
    decide (1 ≤ n) && decide (n ≤ USIZE_MAX)
  | _ => true

/-- Whether an Except value is ok. -/
def exceptIsOk {ε α : Type} : Except ε α → Bool
  | Except.ok _ => true
  | Except.error _ => false

/-- C1: the code evaluated at the claim's input. Squeeze-only mode
(squeeze set, delete unset, no SET2) with SET1 "a" on input "aaabaaa"
outputs "ab" — the engine drops every later occurrence across the whole
input, not only adjacent repeats — and not the "aba" the claim states. -/
theorem c1_squeeze_only_eval :
    tr_core ⟨false, true, false, false⟩ "a".toList none "aaabaaa".toList =
      Except.ok "ab".toList ∧
    "ab".toList ≠ "aba".toList :=
  ⟨rfl, by decide⟩

/-- C4: parsing "a-f" is whole-string range shorthand and yields the six
ascending literals a..f, each Fixed(1); "a-cx-z" fails the whole-string
range detector, so every one of its characters — both dashes included —
parses to a Fixed(1) literal. -/
theorem c4_range_shorthand :
    contains_single_range "a-f".toList = true ∧
    parse_string1_or_string2 "a-f".toList =
      Except.ok [lit1 'a', lit1 'b', lit1 'c', lit1 'd', lit1 'e', lit1 'f'] ∧
    contains_single_range "a-cx-z".toList = false ∧
    parse_string1_or_string2 "a-cx-z".toList =
      Except.ok [lit1 'a', lit1 '-', lit1 'c', lit1 'x', lit1 '-', lit1 'z'] :=
  ⟨rfl, rfl, rfl, rfl⟩

/-- C2 counterexample: a concrete complement-engine step at which the
input character is outside set1, the cursor rests on an Equivalence
operand, a substitution through it is emitted — and the set2 cursor
advances from 0 to 1 (no counter is touched), contradicting the claim
that an Equivalence substitution never advances the cursor. Running the
whole engine on "bb" accordingly yields "ex", not a repeated "e". -/
theorem c2_equiv_cursor_counterexample :
    operandsContains [lit1 'a'] 'b' = false ∧
    ([Operand.Equiv ⟨'e'⟩, lit1 'x'] : List Operand)[0]? = some (Operand.Equiv ⟨'e'⟩) ∧
    complementStep [lit1 'a'] [Operand.Equiv ⟨'e'⟩, lit1 'x'] [USIZE_MAX, 1]
        { depleted := [USIZE_MAX, 1], idx := 0 } 'b' =
      Except.ok ({ depleted := [USIZE_MAX, 1], idx := 1 }, 'e') ∧
    (1 : Nat) ≠ 0 ∧
    complement_chars "bb".toList [lit1 'a'] [Operand.Equiv ⟨'e'⟩, lit1 'x'] =
      Except.ok "ex".toList :=
  ⟨rfl, rfl, rfl, by decide, rfl⟩

/-- C2 (amended): when a substitution is taken (the input character is
not in set1) and the set2 cursor rests on an Equivalence operand, the
operand's stored character is emitted, no counter is decremented, and
the cursor always advances — to the next position, or wrapping to zero
with all counters restored at the end of set2. (The depletion counter of
an Equivalence operand is still initialized unbounded, like that of an
AsManyAsNeeded operand, but it is never consulted.) -/
theorem c2_equiv_substitution_advances (chars1 chars2 : List Operand)
    (depleted0 depleted : List Nat) (idx : Nat) (ch : Char) (eqv : TrEquiv)
    (st2 : ComplState) (out : Char)
    (hmem : operandsContains chars1 ch = false)
    (hop : chars2[idx]? = some (Operand.Equiv eqv))
    (hstep : complementStep chars1 chars2 depleted0
      { depleted := depleted, idx := idx } ch = Except.ok (st2, out)) :
    out = eqv.char ∧
    st2 = (if idx + 1 ≥ chars2.length then ({ depleted := depleted0, idx := 0 } : ComplState)
           else { depleted := depleted, idx := idx + 1 }) := by
  unfold complementStep at hstep
  rw [hmem] at hstep
  simp only [Bool.false_eq_true, if_false] at hstep
  simp only [hop] at hstep
  split at hstep <;> cases hstep
  · exact ⟨rfl, by rw [if_pos (by omega)]⟩
  · exact ⟨rfl, by rw [if_neg (by omega)]⟩

/-- Closed witness for the amended C2 theorem at a concrete step. -/
theorem c2_equiv_substitution_advances_witness :
    'e' = (⟨'e'⟩ : TrEquiv).char ∧
    ({ depleted := [USIZE_MAX, 1], idx := 1 } : ComplState) =
      (if 0 + 1 ≥ ([Operand.Equiv ⟨'e'⟩, lit1 'x'] : List Operand).length then
        ({ depleted := [USIZE_MAX, 1], idx := 0 } : ComplState)
       else { depleted := [USIZE_MAX, 1], idx := 0 + 1 }) :=
  c2_equiv_substitution_advances [lit1 'a'] [Operand.Equiv ⟨'e'⟩, lit1 'x']
    [USIZE_MAX, 1] [USIZE_MAX, 1] 0 'b' ⟨'e'⟩
    { depleted := [USIZE_MAX, 1], idx := 1 } 'e' rfl rfl rfl

/-- If the string2 scanning loop returns successfully, the scanned
operands contain at most one AsManyAsNeeded marker (none at all when one
was already recorded in the accumulator). -/
theorem scanSet2_ok_aman_le (l : List Operand) :
    ∀ (aidx : Option Nat) (total us : Nat) (r : Option Nat × Nat),
    scanSet2 l aidx total us = Except.ok r →
    amanCount l + (if aidx.isSome then 1 else 0) ≤ 1 := by
  induction l with
  | nil =>
    intro aidx total us r _
    cases aidx <;> simp [amanCount]
  | cons op rest ih =>
    intro aidx total us r h
    match op with
    | Operand.Char { char := c, char_repetition := CharRepetition.AsManyAsNeeded } =>
      rw [scanSet2] at h
      split at h
      · exact absurd h (by simp)
      · have hrest := ih (some us) total (us + 1) r h
        have haidx : aidx.isSome = false := by
          rename_i hcond
          simpa using hcond
        simp [amanCount, isAmanChar, haidx] at hrest ⊢
        all_goals omega
    | Operand.Char { char := c, char_repetition := CharRepetition.N n } =>
      rw [scanSet2] at h
      split at h
      · exact absurd h (by simp)
      · have hrest := ih aidx _ (us + 1) r h
        simp only [amanCount, isAmanChar, Bool.false_eq_true, if_false]
        omega
    | Operand.Equiv e =>
      rw [scanSet2] at h
      exact absurd h (by simp)

/-- C7: `[x*0]` and `[x*]` each parse to a single literal for x with
repetition AsManyAsNeeded, and transformation-map building over any SET2
containing two (or more) AsManyAsNeeded operands never succeeds — the
scan of SET2 (or an earlier step) fails with a fatal error. -/
theorem c7_as_many_as_needed :
    parse_string1_or_string2 "[x*0]".toList =
      Except.ok [Operand.Char ⟨'x', CharRepetition.AsManyAsNeeded⟩] ∧
    parse_string1_or_string2 "[x*]".toList =
      Except.ok [Operand.Char ⟨'x', CharRepetition.AsManyAsNeeded⟩] ∧
    ∀ (set1 set2 : List Operand), 2 ≤ amanCount set2 →
      exceptIsOk (generate_transformation_hash_map set1 set2) = false := by
  refine ⟨rfl, rfl, ?_⟩
  intro set1 set2 h2
  rw [generate_transformation_hash_map]
  cases hf : flattenSet1Go set1 0 [] with
  | error e => simp [exceptIsOk]
  | ok p =>
    cases hs : scanSet2 set2 none 0 0 with
    | error e => simp [exceptIsOk]
    | ok r =>
      have := scanSet2_ok_aman_le set2 none 0 0 r hs
      simp only [Option.isSome] at this
      omega

/-- Closed witness for the universal part of the C7 theorem. -/
theorem c7_as_many_as_needed_witness :
    exceptIsOk (generate_transformation_hash_map [lit1 'a']
      [Operand.Char ⟨'x', CharRepetition.AsManyAsNeeded⟩,
       Operand.Char ⟨'y', CharRepetition.AsManyAsNeeded⟩]) = false :=
  c7_as_many_as_needed.2.2 [lit1 'a'] _ (by decide)

/-- C8: any parse error of SET1 or SET2, and any transformation-map
building error in translate mode, is returned by the dispatcher before
any output is produced: the run's result is exactly that error and no
output text exists. -/
theorem c8_errors_abort :
    (∀ (args : Flags) (s1 : List Char) (s2 : Option (List Char)) (input : List Char) (e : String),
      parse_string1_or_string2 s1 = Except.error e →
      tr_core args s1 s2 input = Except.error e) ∧
    (∀ (args : Flags) (s1 s2 input : List Char) (ops1 : List Operand) (e : String),
      parse_string1_or_string2 s1 = Except.ok ops1 →
      parse_string1_or_string2 s2 = Except.error e →
      tr_core args s1 (some s2) input = Except.error e) ∧
    (∀ (args : Flags) (s1 s2 input : List Char) (ops1 ops2 : List Operand) (e : String),
      args.delete = false → args.complement_val = false → args.complement_char = false →
      parse_string1_or_string2 s1 = Except.ok ops1 →
      parse_string1_or_string2 s2 = Except.ok ops2 →
      ops2.isEmpty = false →
      generate_transformation_hash_map ops1 ops2 = Except.error e →
      tr_core args s1 (some s2) input = Except.error e) := by
  refine ⟨?_, ?_, ?_⟩
  · intro args s1 s2 input e h
    cases s2 <;> simp [tr_core, h]
  · intro args s1 s2 input ops1 e h1 h2
    simp [tr_core, h1, h2]
  · intro args s1 s2 input ops1 ops2 e hd hcv hcc h1 h2 hne hg
    simp [tr_core, h1, h2, hd, hcv, hcc, hne, hg]

/-- Closed witness for the C8 theorem: a SET1 parse error (an invalid
repeat count) and a map-building error (a repeat construct in SET1) each
abort the corresponding run with exactly that error. -/
theorem c8_errors_abort_witness :
    tr_core ⟨false, false, false, false⟩ "[x*y]".toList (some "b".toList) "q".toList =
      Except.error "tr: invalid repeat count ‘y’ in [c*n] construct" ∧
    tr_core ⟨false, false, false, false⟩ "[x*]".toList (some "b".toList) "q".toList =
      Except.error "tr: the [c*] repeat construct may not appear in string1" :=
  ⟨c8_errors_abort.1 ⟨false, false, false, false⟩ "[x*y]".toList (some "b".toList)
      "q".toList _ rfl,
   c8_errors_abort.2.2 ⟨false, false, false, false⟩ "[x*]".toList "b".toList
      "q".toList [Operand.Char ⟨'x', CharRepetition.AsManyAsNeeded⟩] [lit1 'b'] _
      rfl rfl rfl rfl rfl rfl rfl⟩

/-- A successful complement scan emits exactly one character per input
character. -/
theorem complementGo_ok_length (chars1 chars2 : List Operand) (d0 : List Nat) :
    ∀ (input : List Char) (st : ComplState) (res : List Char),
    complementGo chars1 chars2 d0 input st = Except.ok res →
    res.length = input.length := by
  intro input
  induction input with
  | nil =>
    intro st res h
    simp only [complementGo] at h
    cases h
    rfl
  | cons ch rest ih =>
    intro st res h
    rw [complementGo] at h
    split at h
    · exact absurd h (by simp)
    · split at h
      · exact absurd h (by simp)
      · cases h
        simp only [List.length_cons]
        have := ih _ _ (by assumption)
        omega

/-- A successful complement_chars run preserves the character count. -/
theorem complement_chars_ok_length (input : List Char) (c1 c2 : List Operand)
    (res : List Char) (h : complement_chars input c1 c2 = Except.ok res) :
    res.length = input.length :=
  complementGo_ok_length c1 c2 (initialDepleted c2) input
    { depleted := initialDepleted c2, idx := 0 } res h

/-- C10: in translate mode without squeeze and in complement mode (either
complement flag) without squeeze, the dispatcher emits exactly one
character per input character: any successful run's output length equals
the input length. -/
theorem c10_output_length (args : Flags) (s1 : List Char)
    (s2 : Option (List Char)) (input out : List Char)
    (hd : args.delete = false) (hs : args.squeeze_repeats = false)
    (hok : tr_core args s1 s2 input = Except.ok out) :
    out.length = input.length := by
  cases h1 : parse_string1_or_string2 s1 with
  | error e => simp [tr_core, h1] at hok
  | ok ops1 =>
    cases s2 with
    | none =>
      cases hcc : args.complement_char <;> cases hcv : args.complement_val <;>
        simp [tr_core, h1, hd, hs, hcc, hcv] at hok
    | some st2 =>
      cases h2 : parse_string1_or_string2 st2 with
      | error e => simp [tr_core, h1, h2] at hok
      | ok ops2 =>
        cases hcc : args.complement_char <;> cases hcv : args.complement_val
        · -- translate mode
          simp only [tr_core, h1, h2, hd, hs, hcc, hcv, Bool.or_false,
            Bool.false_eq_true, if_false, Option.isNone_some, Bool.and_false] at hok
          cases hemp : ops2.isEmpty with
          | true => simp [hemp] at hok
          | false =>
            cases hg : generate_transformation_hash_map ops1 ops2 with
            | error e => simp [hemp, hg] at hok
            | ok m =>
              simp only [hemp, hg, Bool.false_eq_true, if_false] at hok
              cases hok
              simp
        · -- complement by value (sorted set2)
          simp only [tr_core, h1, h2, hd, hs, hcc, hcv, Bool.or_true,
            Bool.false_eq_true, if_false, if_true, Option.isNone_some,
            Bool.and_false] at hok
          cases hcompl : complement_chars input ops1 (sortOperands ops2) with
          | error e => simp [hcompl] at hok
          | ok res =>
            simp only [hcompl] at hok
            cases hok
            exact complement_chars_ok_length input ops1 (sortOperands ops2) _ hcompl
        · -- complement by character
          simp only [tr_core, h1, h2, hd, hs, hcc, hcv, Bool.true_or,
            Bool.false_eq_true, if_false, if_true, Option.isNone_some,
            Bool.and_false] at hok
          cases hcompl : complement_chars input ops1 ops2 with
          | error e => simp [hcompl] at hok
          | ok res =>
            simp only [hcompl] at hok
            cases hok
            exact complement_chars_ok_length input ops1 ops2 _ hcompl
        · -- both complement flags (complement by character wins)
          simp only [tr_core, h1, h2, hd, hs, hcc, hcv, Bool.true_or,
            Bool.false_eq_true, if_false, if_true, Option.isNone_some,
            Bool.and_false] at hok
          cases hcompl : complement_chars input ops1 ops2 with
          | error e => simp [hcompl] at hok
          | ok res =>
            simp only [hcompl] at hok
            cases hok
            exact complement_chars_ok_length input ops1 ops2 _ hcompl

/-- Closed witness for the C10 theorem: a concrete value-complement run. -/
theorem c10_output_length_witness :
    ("bb".toList).length = ("xy".toList).length :=
  c10_output_length ⟨false, false, true, false⟩ "a".toList (some "b".toList)
    "xy".toList "bb".toList rfl rfl rfl

/-- The seen-set filter of the squeeze engine equals the
first-occurrence-in-prefix filter of the specification, whenever the seen
set and the scanned prefix agree on every character that satisfies the
squeeze condition. -/
theorem squeezeLoop_eq_specLoop (fullText : List Char) (refset : List Operand) :
    ∀ (l seen pre : List Char),
    (∀ c : Char, (fullText.count c > 1 && operandsContains refset c) = true →
      (c ∈ seen ↔ c ∈ pre)) →
    squeezeLoop fullText refset seen l = squeezeSpecLoop fullText refset pre l := by
  intro l
  induction l with
  | nil => intro seen pre _; rfl
  | cons ch rest ih =>
    intro seen pre hinv
    by_cases hcond : (fullText.count ch > 1 && operandsContains refset ch) = true
    · by_cases hseen : ch ∈ seen
      · have hpre : ch ∈ pre := (hinv ch hcond).mp hseen
        have hseenB : seen.contains ch = true := List.elem_iff.mpr hseen
        have hpreB : pre.contains ch = true := List.elem_iff.mpr hpre
        have htail := ih seen (pre ++ [ch]) (by
          intro c hc
          rw [List.mem_append, List.mem_singleton]
          by_cases hcch : c = ch
          · subst hcch
            simp [hseen, hpre]
          · simp [hcch, hinv c hc])
        simp [squeezeLoop, squeezeSpecLoop, check_repeatable, hcond, hseenB, hpreB,
          hseen, hpre, htail]
      · have hpre : ch ∉ pre := fun hm => hseen ((hinv ch hcond).mpr hm)
        have hseenB : seen.contains ch = false := by
          rw [Bool.eq_false_iff]
          intro hx
          exact hseen (List.elem_iff.mp hx)
        have hpreB : pre.contains ch = false := by
          rw [Bool.eq_false_iff]
          intro hx
          exact hpre (List.elem_iff.mp hx)
        have htail := ih (ch :: seen) (pre ++ [ch]) (by
          intro c hc
          rw [List.mem_append, List.mem_singleton, List.mem_cons]
          by_cases hcch : c = ch
          · simp [hcch]
          · simp [hcch, hinv c hc])
        simp [squeezeLoop, squeezeSpecLoop, check_repeatable, hcond, hseenB, hpreB,
          hseen, hpre, htail]
    · have htail := ih seen (pre ++ [ch]) (by
        intro c hc
        rw [List.mem_append, List.mem_singleton]
        by_cases hcch : c = ch
        · exact absurd (hcch ▸ hc) hcond
        · simp [hcch, hinv c hc])
      simp [squeezeLoop, squeezeSpecLoop, check_repeatable, hcond, htail]

/-- An i32 counter that was incremented fewer than 2^31 times has not
wrapped: its signed value is the Nat count itself. -/
theorem i32OfNat_of_lt (n : Nat) (h : n < 2 ^ 31) : i32OfNat n = n := by
  simp only [i32OfNat]
  rw [Nat.mod_eq_of_lt (by omega)]
  rw [if_pos h]

/-- When no character of the full text has a count that wraps the i32
histogram, the squeeze-only loop coincides with the usize-count loop. -/
theorem squeezeLoopI32_eq_squeezeLoop (fullText : List Char) (refset : List Operand)
    (hbound : ∀ c : Char, fullText.count c < 2 ^ 31) :
    ∀ (l seen : List Char),
    squeezeLoopI32 fullText refset seen l = squeezeLoop fullText refset seen l := by
  intro l
  induction l with
  | nil => intro seen; rfl
  | cons ch rest ih =>
    intro seen
    have hc : (decide (i32OfNat (fullText.count ch) > 1)) =
        (decide (fullText.count ch > 1)) := by
      rw [i32OfNat_of_lt _ (hbound ch)]
      exact decide_eq_decide.mpr (by exact_mod_cast Iff.rfl)
    by_cases hcond : (fullText.count ch > 1 && operandsContains refset ch) = true
    · by_cases hseen : ch ∈ seen
      · simp [squeezeLoopI32, squeezeLoop, check_repeatable, hc, hcond, hseen, ih]
      · simp [squeezeLoopI32, squeezeLoop, check_repeatable, hc, hcond, hseen, ih]
    · simp [squeezeLoopI32, squeezeLoop, check_repeatable, hc, hcond, ih]

/-- If no character of the scanned list satisfies the i32 squeeze
condition, the squeeze-only loop keeps every character. -/
theorem squeezeLoopI32_all_kept (fullText : List Char) (refset : List Operand) :
    ∀ (l seen : List Char),
    (∀ c ∈ l, (i32OfNat (fullText.count c) > 1 && operandsContains refset c) = false) →
    squeezeLoopI32 fullText refset seen l = l := by
  intro l
  induction l with
  | nil => intro seen _; rfl
  | cons ch rest ih =>
    intro seen hall
    have hch := hall ch (List.mem_cons_self _ _)
    have htail := ih seen (fun c hc => hall c (List.mem_cons_of_mem _ hc))
    simp [squeezeLoopI32, hch, htail]

/-- If every character of the scanned list satisfies the squeeze
condition and already occurs in the scanned prefix, the specification
filter drops the whole list. -/
theorem squeezeSpecLoop_all_dropped (fullText : List Char) (refset : List Operand) :
    ∀ (l pre : List Char),
    (∀ c ∈ l, (fullText.count c > 1 && operandsContains refset c) = true ∧ c ∈ pre) →
    squeezeSpecLoop fullText refset pre l = [] := by
  intro l
  induction l with
  | nil => intro pre _; rfl
  | cons ch rest ih =>
    intro pre hall
    obtain ⟨hcond, hmem⟩ := hall ch (List.mem_cons_self _ _)
    have hpreB : pre.contains ch = true := List.elem_iff.mpr hmem
    have htail := ih (pre ++ [ch]) (fun c hc =>
      ⟨(hall c (List.mem_cons_of_mem _ hc)).1,
       List.mem_append.mpr (Or.inl (hall c (List.mem_cons_of_mem _ hc)).2)⟩)
    simp [squeezeSpecLoop, hcond, hmem, hpreB, htail]

/-- C3 counterexample: on the text of 2^31 copies of 'a' with reference
set ['a'], the character 'a' has input-wide count 2^31 > 1 and is a
member of the reference set, so the claim demands that only its first
occurrence be kept (the specification filter returns exactly one 'a');
but the squeeze-only branch's wrapping i32 counter holds -2^31, the
signed comparison with 1 fails, and the engine keeps every occurrence,
returning the whole text, which differs from the single 'a'. -/
theorem c3_squeeze_i32_wrap_counterexample :
    1 < (List.replicate (2 ^ 31) 'a').count 'a' ∧
    operandsContains [lit1 'a'] 'a' = true ∧
    squeeze_filter_i32 (List.replicate (2 ^ 31) 'a') [lit1 'a'] =
      List.replicate (2 ^ 31) 'a' ∧
    squeezeSpec (List.replicate (2 ^ 31) 'a') [lit1 'a'] = ['a'] ∧
    List.replicate (2 ^ 31) 'a' ≠ ['a'] := by
  have hcnt : (List.replicate (2 ^ 31) 'a').count 'a' = 2 ^ 31 :=
    List.count_replicate_self _ _
  have hid : squeeze_filter_i32 (List.replicate (2 ^ 31) 'a') [lit1 'a'] =
      List.replicate (2 ^ 31) 'a' := by
    apply squeezeLoopI32_all_kept
    intro c hc
    have hca : c = 'a' := List.eq_of_mem_replicate hc
    subst hca
    rw [hcnt]
    decide
  have h31 : (2 : Nat) ^ 31 = 2 ^ 31 - 1 + 1 := by norm_num
  have hrepl : List.replicate (2 ^ 31) 'a' = 'a' :: List.replicate (2 ^ 31 - 1) 'a' := by
    conv_lhs => rw [h31]
    rw [List.replicate_succ]
  have hspec : squeezeSpec (List.replicate (2 ^ 31) 'a') [lit1 'a'] = ['a'] := by
    show squeezeSpecLoop (List.replicate (2 ^ 31) 'a') [lit1 'a'] []
        (List.replicate (2 ^ 31) 'a') = ['a']
    rw [congrArg (squeezeSpecLoop (List.replicate (2 ^ 31) 'a') [lit1 'a'] []) hrepl]
    have hcondA : ((List.replicate (2 ^ 31) 'a').count 'a' > 1 &&
        operandsContains [lit1 'a'] 'a') = true := by
      rw [hcnt]
      decide
    have hdrop := squeezeSpecLoop_all_dropped (List.replicate (2 ^ 31) 'a') [lit1 'a']
      (List.replicate (2 ^ 31 - 1) 'a') ['a'] (fun c hc => by
        have hca : c = 'a' := List.eq_of_mem_replicate hc
        subst hca
        exact ⟨hcondA, List.mem_singleton.mpr rfl⟩)
    rw [squeezeSpecLoop]
    have hnil : List.contains [] 'a' = false := rfl
    rw [hnil, Bool.and_false]
    simp only [Bool.false_eq_true, if_false]
    rw [List.nil_append, hdrop]
  refine ⟨by rw [hcnt]; norm_num, by decide, hid, hspec, ?_⟩
  intro h
  have hl := congrArg List.length h
  rw [List.length_replicate] at hl
  norm_num at hl

/-- C3 (amended): for every input text in which no character occurs 2^31
or more times — so the squeeze-only branch's i32 histogram does not wrap
— and every reference set, the squeeze-only engine keeps, for each
character whose input-wide count exceeds one and which is a member of
the reference set, only its first occurrence across the whole text, and
keeps every other occurrence (it equals the specification filter); the
usize-count squeeze engine of the delete and translate sites equals the
specification filter for every text whatsoever. -/
theorem c3_squeeze_first_occurrence_amended (text : List Char) (refset : List Operand)
    (hbound : ∀ c : Char, text.count c < 2 ^ 31) :
    squeeze_filter_i32 text refset = squeezeSpec text refset ∧
    squeeze_filter text refset = squeezeSpec text refset := by
  constructor
  · have h1 : squeeze_filter_i32 text refset = squeeze_filter text refset :=
      squeezeLoopI32_eq_squeezeLoop text refset hbound text []
    rw [h1]
    exact squeezeLoop_eq_specLoop text refset text [] [] (fun _ _ => Iff.rfl)
  · exact squeezeLoop_eq_specLoop text refset text [] [] (fun _ _ => Iff.rfl)

/-- C3 amended witness: at text "aaabaaa" (each count at most 7, far
below the wrap bound) and reference set ['a'], both squeeze engines
equal the specification filter. -/
theorem c3_squeeze_first_occurrence_amended_witness :
    squeeze_filter_i32 "aaabaaa".toList [lit1 'a'] =
      squeezeSpec "aaabaaa".toList [lit1 'a'] ∧
    squeeze_filter "aaabaaa".toList [lit1 'a'] =
      squeezeSpec "aaabaaa".toList [lit1 'a'] :=
  c3_squeeze_first_occurrence_amended "aaabaaa".toList [lit1 'a']
    (fun c => lt_of_le_of_lt (List.count_le_length c "aaabaaa".toList) (by decide))

/-- C6 counterexample: with delete and both complement flags unset — the
claim's "translate mode" — but squeeze set (which the claim does not
exclude), SET1 "a", SET2 "b", input "bb": the character b does not occur
in SET1's flattened expansion ['a'] and occurs at input position 1, yet
the output "b" has no character at position 1, so that occurrence is not
left unchanged at its position. -/
theorem c6_translate_counterexample :
    parse_string1_or_string2 "a".toList = Except.ok [lit1 'a'] ∧
    flattenSet1Go [lit1 'a'] 0 [] = Except.ok (1, ['a']) ∧
    ('b' ∉ (['a'] : List Char)) ∧
    tr_core ⟨false, true, false, false⟩ "a".toList (some "b".toList) "bb".toList =
      Except.ok "b".toList ∧
    ("bb".toList)[1]? = some 'b' ∧
    ("b".toList)[1]? = none :=
  ⟨rfl, rfl, by decide, rfl, rfl, rfl⟩

/-- A successful positional map construction only ever inserts keys drawn
from the flattened string1, so a successful lookup means the key is a
string1 character or was present in the accumulator. -/
theorem buildTranslationMap_lookup_mem :
    ∀ (flat1 flat2 : List Char) (us : Nat) (m0 m : List (Char × Char)) (c : Char),
    buildTranslationMap flat1 flat2 us m0 = Except.ok m →
    hmGet m c ≠ none → c ∈ flat1 ∨ hmGet m0 c ≠ none := by
  intro flat1
  induction flat1 with
  | nil =>
    intro flat2 us m0 m c h hg
    rw [buildTranslationMap] at h
    cases h
    exact Or.inr hg
  | cons a rest ih =>
    intro flat2 us m0 m c h hg
    rw [buildTranslationMap] at h
    cases hidx : flat2[us]? with
    | none =>
      rw [hidx] at h
      exact absurd h (by simp)
    | some cha =>
      rw [hidx] at h
      rcases ih flat2 (us + 1) ((a, cha) :: m0) m c h hg with hmem | hg0
      · exact Or.inl (List.mem_cons_of_mem _ hmem)
      · by_cases hac : a = c
        · exact Or.inl (by simp [hac])
        · refine Or.inr ?_
          unfold hmGet at hg0 ⊢
          rw [List.find?] at hg0
          have : ((a, cha).1 == c) = false := by simp [hac]
          rw [this] at hg0
          exact hg0

/-- A successful transformation map contains no binding for a character
absent from string1's flattened expansion. -/
theorem generate_ok_lookup_none (ops1 ops2 : List Operand) (m : List (Char × Char))
    (total : Nat) (flat1 : List Char)
    (hf : flattenSet1Go ops1 0 [] = Except.ok (total, flat1))
    (hg : generate_transformation_hash_map ops1 ops2 = Except.ok m)
    (c : Char) (hc : c ∉ flat1) : hmGet m c = none := by
  rw [generate_transformation_hash_map] at hg
  rw [hf] at hg
  cases hs : scanSet2 ops2 none 0 0 with
  | error e =>
    rw [hs] at hg
    exact absurd hg (by simp)
  | ok r =>
    rw [hs] at hg
    obtain ⟨aidx, rtotal⟩ := r
    simp only at hg
    cases hext : (if rtotal < total then extendSet2 ops2 aidx (total - rtotal)
        else Except.ok ops2) with
    | error e =>
      rw [hext] at hg
      exact absurd hg (by simp)
    | ok s2use =>
      rw [hext] at hg
      simp only at hg
      cases hfl2 : flattenSet2Go s2use [] with
      | error e =>
        rw [hfl2] at hg
        exact absurd hg (by simp)
      | ok flat2 =>
        rw [hfl2] at hg
        by_contra hne
        rcases buildTranslationMap_lookup_mem flat1 flat2 0 [] m c hg hne with hmem | hg0
        · exact hc hmem
        · exact hg0 rfl

/-- C6 (amended): in translate mode with the delete, complement and also
the squeeze flag unset (the counterexample forces excluding squeeze),
every occurrence of a character that does not occur in SET1's flattened
expansion appears unchanged at the same position of the output. -/
theorem c6_translate_unmapped_unchanged (s1 s2 input out : List Char)
    (ops1 : List Operand) (total : Nat) (flat1 : List Char)
    (hok : tr_core ⟨false, false, false, false⟩ s1 (some s2) input = Except.ok out)
    (h1 : parse_string1_or_string2 s1 = Except.ok ops1)
    (hf : flattenSet1Go ops1 0 [] = Except.ok (total, flat1))
    (c : Char) (hc : c ∉ flat1) :
    ∀ i : Nat, input[i]? = some c → out[i]? = some c := by
  cases h2 : parse_string1_or_string2 s2 with
  | error e => simp [tr_core, h1, h2] at hok
  | ok ops2 =>
    simp only [tr_core, h1, h2, Bool.false_eq_true, if_false, Bool.or_false,
      Option.isNone_some, Bool.and_false, Bool.false_and] at hok
    cases hemp : ops2.isEmpty with
    | true => simp [hemp] at hok
    | false =>
      cases hg : generate_transformation_hash_map ops1 ops2 with
      | error e => simp [hemp, hg] at hok
      | ok m =>
        simp only [hemp, hg, Bool.false_eq_true, if_false] at hok
        cases hok
        intro i hi
        have hnone := generate_ok_lookup_none ops1 ops2 m total flat1 hf hg c hc
        rw [List.getElem?_map, hi]
        simp [hnone]

/-- Closed witness for the amended C6 theorem: translating "ab" with
SET1 "a", SET2 "b" gives "bb", and the b at position 1 (b is not in
SET1's expansion) is unchanged in place. -/
theorem c6_translate_unmapped_unchanged_witness :
    ("bb".toList)[1]? = some 'b' :=
  c6_translate_unmapped_unchanged "a".toList "b".toList "ab".toList "bb".toList
    [lit1 'a'] 1 ['a'] rfl rfl rfl 'b' (by decide) 1 rfl

/-- Under fixed-Literal operands whose total fits in usize, the string1
flattening loop succeeds, adds the fixed total to the accumulator, and
appends a flattened run of exactly that length. -/
theorem flattenSet1Go_ok (l : List Operand) :
    ∀ (total : Nat) (acc : List Char),
    (∀ op ∈ l, isFixedChar op = true) →
    total + sumFixed l ≤ USIZE_MAX →
    ∃ flat : List Char,
      flattenSet1Go l total acc = Except.ok (total + sumFixed l, acc ++ flat) ∧
      flat.length = sumFixed l := by
  induction l with
  | nil =>
    intro total acc _ _
    exact ⟨[], by simp [flattenSet1Go, sumFixed], by simp [sumFixed]⟩
  | cons op rest ih =>
    intro total acc hwf hb
    match op with
    | Operand.Char { char := c, char_repetition := CharRepetition.N n } =>
      have hb' : total + (n + sumFixed rest) ≤ USIZE_MAX := by
        simpa [sumFixed] using hb
      rw [flattenSet1Go]
      have hadd : checkedAdd total n = some (total + n) := by
        unfold checkedAdd
        rw [if_pos (by omega)]
      rw [hadd]
      obtain ⟨flat, hfl, hlen⟩ := ih (total + n) (acc ++ List.replicate n c)
        (fun op2 hop => hwf op2 (List.mem_cons_of_mem _ hop))
        (by omega)
      refine ⟨List.replicate n c ++ flat, ?_, ?_⟩
      · simpa [sumFixed, Nat.add_assoc, List.append_assoc] using hfl
      · simp [sumFixed, hlen]
    | Operand.Char { char := c, char_repetition := CharRepetition.AsManyAsNeeded } =>
      have := hwf _ (List.mem_cons_self _ _)
      simp [isFixedChar] at this
    | Operand.Equiv e =>
      have := hwf _ (List.mem_cons_self _ _)
      simp [isFixedChar] at this

/-- Under Char operands with at most one AsManyAsNeeded marker and a
fixed total fitting in usize, the string2 scanning loop succeeds,
returning the fixed total and either no marker index (and then the set
has no marker) or the index of an actual AsManyAsNeeded operand. -/
theorem scanSet2_ok_of_wf (l : List Operand) :
    ∀ (aidx0 : Option Nat) (total us : Nat),
    (∀ op ∈ l, isCharOperand op = true) →
    amanCount l + (if aidx0.isSome then 1 else 0) ≤ 1 →
    total + sumFixed l ≤ USIZE_MAX →
    ∃ aidx : Option Nat,
      scanSet2 l aidx0 total us = Except.ok (aidx, total + sumFixed l) ∧
      ((aidx = aidx0 ∧ amanCount l = 0) ∨
        (∃ (j : Nat) (c : Char), aidx = some (us + j) ∧
          l[j]? = some (Operand.Char { char := c, char_repetition := CharRepetition.AsManyAsNeeded }))) := by
  induction l with
  | nil =>
    intro aidx0 total us _ _ _
    exact ⟨aidx0, by simp [scanSet2, sumFixed], Or.inl ⟨rfl, rfl⟩⟩
  | cons op rest ih =>
    intro aidx0 total us hch ham hb
    match op with
    | Operand.Char { char := c, char_repetition := CharRepetition.AsManyAsNeeded } =>
      have hcount : amanCount (Operand.Char { char := c, char_repetition := CharRepetition.AsManyAsNeeded } :: rest) =
          1 + amanCount rest := by
        simp [amanCount, isAmanChar]
      rw [hcount] at ham
      have haidx0 : aidx0 = none := by
        cases aidx0 with
        | none => rfl
        | some v =>
          simp at ham
      subst haidx0
      simp only [Option.isSome_none, Bool.false_eq_true, if_false] at ham
      have ham2 : amanCount rest + (if (some us : Option Nat).isSome then 1 else 0) ≤ 1 := by
        simp only [Option.isSome_some, if_true]
        omega
      rw [scanSet2]
      rw [if_neg (by simp)]
      obtain ⟨aidx, hscan, hprop⟩ := ih (some us) total (us + 1)
        (fun op2 hop => hch op2 (List.mem_cons_of_mem _ hop))
        ham2
        (by simpa [sumFixed] using hb)
      refine ⟨aidx, by simpa [sumFixed] using hscan, Or.inr ?_⟩
      rcases hprop with ⟨heq, _⟩ | ⟨j, c2, heq, hj⟩
      · exact ⟨0, c, by simp [heq], by simp⟩
      · refine ⟨j + 1, c2, ?_, by simpa using hj⟩
        rw [heq]
        congr 1
        omega
    | Operand.Char { char := c, char_repetition := CharRepetition.N n } =>
      rw [scanSet2]
      have hb' : total + (n + sumFixed rest) ≤ USIZE_MAX := by
        simpa [sumFixed] using hb
      have hadd : checkedAdd total n = some (total + n) := by
        unfold checkedAdd
        rw [if_pos (by omega)]
      rw [hadd]
      obtain ⟨aidx, hscan, hprop⟩ := ih aidx0 (total + n) (us + 1)
        (fun op2 hop => hch op2 (List.mem_cons_of_mem _ hop))
        (by simpa [amanCount, isAmanChar] using ham)
        (by omega)
      refine ⟨aidx, ?_, ?_⟩
      · simpa [sumFixed, Nat.add_assoc] using hscan
      · rcases hprop with ⟨heq, hcnt⟩ | ⟨j, c2, heq, hj⟩
        · exact Or.inl ⟨heq, by simpa [amanCount, isAmanChar] using hcnt⟩
        · refine Or.inr ⟨j + 1, c2, ?_, by simpa using hj⟩
          rw [heq]
          congr 1
          omega
    | Operand.Equiv e =>
      have := hch _ (List.mem_cons_self _ _)
      simp [isCharOperand] at this

/-- Replacing an AsManyAsNeeded Literal at a known position by a fixed
Literal of count m raises the fixed total by exactly m. -/
theorem sumFixed_set_aman (l : List Operand) :
    ∀ (j : Nat) (c : Char) (m : Nat),
    l[j]? = some (Operand.Char { char := c, char_repetition := CharRepetition.AsManyAsNeeded }) →
    sumFixed (l.set j (Operand.Char { char := c, char_repetition := CharRepetition.N m })) =
      sumFixed l + m := by
  induction l with
  | nil => intro j c m h; simp at h
  | cons a rest ih =>
    intro j c m h
    cases j with
    | zero =>
      simp only [List.getElem?_cons_zero, Option.some.injEq] at h
      subst h
      simp [sumFixed]
      omega
    | succ j2 =>
      simp only [List.getElem?_cons_succ] at h
      rw [List.set_cons_succ]
      have hrec := ih j2 c m h
      match a with
      | Operand.Char { char := c2, char_repetition := CharRepetition.N n2 } =>
        simp only [sumFixed]
        omega
      | Operand.Char { char := c2, char_repetition := CharRepetition.AsManyAsNeeded } =>
        simp only [sumFixed]
        omega
      | Operand.Equiv e2 =>
        simp only [sumFixed]
        omega

/-- In a nonempty all-Char set with no AsManyAsNeeded marker, the last
operand is a fixed Literal whose count is at most the fixed total. -/
theorem getLast_fixed_of_no_aman (l : List Operand) :
    (∀ op ∈ l, isCharOperand op = true) → amanCount l = 0 → l ≠ [] →
    ∃ c n, l.getLast? = some (Operand.Char { char := c, char_repetition := CharRepetition.N n }) ∧
      n ≤ sumFixed l := by
  induction l with
  | nil => intro _ _ hne; exact absurd rfl hne
  | cons a rest ih =>
    intro hch hno hne
    cases rest with
    | nil =>
      match a with
      | Operand.Char { char := c, char_repetition := CharRepetition.N n } =>
        exact ⟨c, n, by simp, by simp [sumFixed]⟩
      | Operand.Char { char := c, char_repetition := CharRepetition.AsManyAsNeeded } =>
        simp [amanCount, isAmanChar] at hno
      | Operand.Equiv e =>
        have := hch _ (List.mem_cons_self _ _)
        simp [isCharOperand] at this
    | cons b rest2 =>
      have hno2 : amanCount (b :: rest2) = 0 := by
        simp only [amanCount] at hno ⊢
        omega
      obtain ⟨c, n, hlast, hle⟩ := ih (fun op hop => hch op (List.mem_cons_of_mem _ hop))
        hno2 (by simp)
      refine ⟨c, n, ?_, ?_⟩
      · rw [List.getLast?_cons_cons]
        exact hlast
      · have hmono : sumFixed (b :: rest2) ≤ sumFixed (a :: b :: rest2) := by
          match a with
          | Operand.Char { char := c2, char_repetition := CharRepetition.N n2 } =>
            simp only [sumFixed]
            omega
          | Operand.Char { char := c2, char_repetition := CharRepetition.AsManyAsNeeded } =>
            simp only [sumFixed]
            omega
          | Operand.Equiv e2 =>
            simp only [sumFixed]
            omega
        omega

/-- Replacing the last operand, a fixed Literal of count n, by one of
count m changes the fixed total from + n to + m. -/
theorem sumFixed_set_last (l : List Operand) :
    ∀ (c : Char) (n m : Nat),
    l.getLast? = some (Operand.Char { char := c, char_repetition := CharRepetition.N n }) →
    sumFixed (l.set (l.length - 1) (Operand.Char { char := c, char_repetition := CharRepetition.N m })) + n =
      sumFixed l + m := by
  induction l with
  | nil => intro c n m h; simp at h
  | cons a rest ih =>
    intro c n m h
    cases rest with
    | nil =>
      simp only [List.getLast?_singleton, Option.some.injEq] at h
      subst h
      simp [sumFixed]
      omega
    | cons b rest2 =>
      rw [List.getLast?_cons_cons] at h
      have hrec := ih c n m h
      have hidx : (a :: b :: rest2).length - 1 = ((b :: rest2).length - 1) + 1 := by
        simp only [List.length_cons]
        omega
      rw [hidx, List.set_cons_succ]
      match a with
      | Operand.Char { char := c2, char_repetition := CharRepetition.N n2 } =>
        simp only [sumFixed]
        omega
      | Operand.Char { char := c2, char_repetition := CharRepetition.AsManyAsNeeded } =>
        simp only [sumFixed]
        omega
      | Operand.Equiv e2 =>
        simp only [sumFixed]
        omega

/-- Membership in a list after a set is membership in the original list
or equality with the inserted element. -/
theorem mem_set_cases (l : List Operand) :
    ∀ (j : Nat) (x op : Operand), op ∈ l.set j x → op ∈ l ∨ op = x := by
  induction l with
  | nil => intro j x op h; simp at h
  | cons a rest ih =>
    intro j x op h
    cases j with
    | zero =>
      rcases List.mem_cons.mp h with h1 | h1
      · exact Or.inr h1
      · exact Or.inl (List.mem_cons_of_mem _ h1)
    | succ j2 =>
      rcases List.mem_cons.mp h with h1 | h1
      · exact Or.inl (h1 ▸ List.mem_cons_self _ _)
      · rcases ih j2 x op h1 with h2 | h2
        · exact Or.inl (List.mem_cons_of_mem _ h2)
        · exact Or.inr h2

/-- Under Char operands, the string2 flattening loop succeeds and
appends exactly the fixed total of characters (AsManyAsNeeded operands
contribute nothing). -/
theorem flattenSet2Go_ok (l : List Operand) :
    ∀ (acc : List Char), (∀ op ∈ l, isCharOperand op = true) →
    ∃ flat, flattenSet2Go l acc = Except.ok (acc ++ flat) ∧ flat.length = sumFixed l := by
  induction l with
  | nil =>
    intro acc _
    exact ⟨[], by simp [flattenSet2Go, sumFixed], by simp [sumFixed]⟩
  | cons op rest ih =>
    intro acc hch
    match op with
    | Operand.Char { char := c, char_repetition := CharRepetition.N n } =>
      obtain ⟨flat, hfl, hlen⟩ := ih (acc ++ List.replicate n c)
        (fun op2 hop => hch op2 (List.mem_cons_of_mem _ hop))
      refine ⟨List.replicate n c ++ flat, ?_, ?_⟩
      · rw [flattenSet2Go]
        simpa [List.append_assoc] using hfl
      · simp [sumFixed, hlen]
    | Operand.Char { char := c, char_repetition := CharRepetition.AsManyAsNeeded } =>
      obtain ⟨flat, hfl, hlen⟩ := ih acc
        (fun op2 hop => hch op2 (List.mem_cons_of_mem _ hop))
      refine ⟨flat, ?_, ?_⟩
      · rw [flattenSet2Go]
        exact hfl
      · simpa [sumFixed] using hlen
    | Operand.Equiv e =>
      have := hch _ (List.mem_cons_self _ _)
      simp [isCharOperand] at this

/-- The positional map construction succeeds whenever the flattened
string2 is long enough. -/
theorem buildTranslationMap_ok (flat1 : List Char) :
    ∀ (flat2 : List Char) (us : Nat) (m0 : List (Char × Char)),
    us + flat1.length ≤ flat2.length →
    ∃ m, buildTranslationMap flat1 flat2 us m0 = Except.ok m := by
  induction flat1 with
  | nil => intro flat2 us m0 _; exact ⟨m0, rfl⟩
  | cons c rest ih =>
    intro flat2 us m0 hle
    have hus : us < flat2.length := by
      simp only [List.length_cons] at hle
      omega
    obtain ⟨m, hm⟩ := ih flat2 (us + 1) ((c, flat2[us]) :: m0) (by
      simp only [List.length_cons] at hle
      omega)
    refine ⟨m, ?_⟩
    rw [buildTranslationMap, List.getElem?_eq_getElem hus]
    exact hm

/-- The string2 extension step succeeds on a nonempty all-Char set2 when
the marker index (if any) points at an actual AsManyAsNeeded operand,
and raises the fixed total by exactly the leftover: the marker's
effective count becomes the leftover, or the leftover is added to the
last operand's fixed count. -/
theorem extendSet2_ok (set2 : List Operand) (aidx : Option Nat) (leftover : Nat)
    (hch : ∀ op ∈ set2, isCharOperand op = true)
    (hne : set2 ≠ [])
    (haidx : (aidx = none ∧ amanCount set2 = 0) ∨
      (∃ j c, aidx = some j ∧
        set2[j]? = some (Operand.Char { char := c, char_repetition := CharRepetition.AsManyAsNeeded })))
    (hbound : sumFixed set2 + leftover ≤ USIZE_MAX) :
    ∃ s2x, extendSet2 set2 aidx leftover = Except.ok s2x ∧
      (∀ op ∈ s2x, isCharOperand op = true) ∧
      sumFixed s2x = sumFixed set2 + leftover := by
  rcases haidx with ⟨hnone, hno⟩ | ⟨j, c, hsome, hj⟩
  · subst hnone
    obtain ⟨c, n, hlast, hle⟩ := getLast_fixed_of_no_aman set2 hch hno hne
    simp only [extendSet2]
    rw [hlast]
    simp only
    have hadd : checkedAdd n leftover = some (n + leftover) := by
      unfold checkedAdd
      rw [if_pos (by omega)]
    rw [hadd]
    refine ⟨_, rfl, ?_, ?_⟩
    · intro op hop
      rcases mem_set_cases _ _ _ op hop with hmem | hmem
      · exact hch op hmem
      · subst hmem
        rfl
    · have := sumFixed_set_last set2 c n (n + leftover) hlast
      omega
  · subst hsome
    simp only [extendSet2]
    rw [hj]
    simp only
    refine ⟨_, rfl, ?_, ?_⟩
    · intro op hop
      rcases mem_set_cases _ _ _ op hop with hmem | hmem
      · exact hch op hmem
      · subst hmem
        rfl
    · exact sumFixed_set_aman set2 j c leftover hj

/-- C5: for SET1 of fixed Literals and a nonempty SET2 of Literal
operands (at most one AsManyAsNeeded, as the scan of SET2 enforces)
whose fixed total falls short of SET1's flattened length (itself fitting
usize), transformation-map building extends SET2 before flattening: the
AsManyAsNeeded operand's effective count becomes exactly the shortfall,
or, absent one, the shortfall is added to the last operand's fixed
count; the extended SET2 flattens to exactly SET1's flattened length and
the positional map construction succeeds with no indexing error. -/
theorem c5_set2_extension (set1 set2 : List Operand)
    (h1 : ∀ op ∈ set1, isFixedChar op = true)
    (h2 : ∀ op ∈ set2, isCharOperand op = true)
    (h3 : amanCount set2 ≤ 1)
    (hne : set2 ≠ [])
    (hlt : sumFixed set2 < sumFixed set1)
    (hbound : sumFixed set1 ≤ USIZE_MAX) :
    ∃ (aidx : Option Nat) (s2x : List Operand) (flat2 : List Char) (m : List (Char × Char)),
      scanSet2 set2 none 0 0 = Except.ok (aidx, sumFixed set2) ∧
      extendSet2 set2 aidx (sumFixed set1 - sumFixed set2) = Except.ok s2x ∧
      sumFixed s2x = sumFixed set1 ∧
      flattenSet2Go s2x [] = Except.ok flat2 ∧
      flat2.length = sumFixed set1 ∧
      generate_transformation_hash_map set1 set2 = Except.ok m := by
  obtain ⟨flat1, hfl1, hlen1⟩ := flattenSet1Go_ok set1 0 [] h1 (by omega)
  obtain ⟨aidx, hscan0, hprop⟩ := scanSet2_ok_of_wf set2 none 0 0 h2 (by simpa using h3)
    (by omega)
  have hscan : scanSet2 set2 none 0 0 = Except.ok (aidx, sumFixed set2) := by
    simpa using hscan0
  have hprop2 : (aidx = none ∧ amanCount set2 = 0) ∨
      (∃ j c, aidx = some j ∧
        set2[j]? = some (Operand.Char { char := c, char_repetition := CharRepetition.AsManyAsNeeded })) := by
    rcases hprop with h | ⟨j, c, hj1, hj2⟩
    · exact Or.inl h
    · exact Or.inr ⟨j, c, by simpa using hj1, hj2⟩
  obtain ⟨s2x, hext, hchx, hsum⟩ := extendSet2_ok set2 aidx (sumFixed set1 - sumFixed set2)
    h2 hne hprop2 (by omega)
  have hsum' : sumFixed s2x = sumFixed set1 := by omega
  obtain ⟨flat2, hfl2raw, hlen2⟩ := flattenSet2Go_ok s2x [] hchx
  have hfl2 : flattenSet2Go s2x [] = Except.ok flat2 := by simpa using hfl2raw
  have hlen2' : flat2.length = sumFixed set1 := by omega
  obtain ⟨m, hm⟩ := buildTranslationMap_ok flat1 flat2 0 [] (by omega)
  refine ⟨aidx, s2x, flat2, m, hscan, hext, hsum', hfl2, hlen2', ?_⟩
  unfold generate_transformation_hash_map
  rw [show flattenSet1Go set1 0 [] = Except.ok (sumFixed set1, flat1) from by simpa using hfl1]
  simp only
  rw [hscan]
  simp only
  rw [if_pos hlt, hext]
  simp only
  rw [hfl2]
  exact hm

/-- Closed witness for the C5 theorem at SET1 = [a repeated 2], SET2 =
[x repeated 1]: map building succeeds. -/
theorem c5_set2_extension_witness :
    exceptIsOk (generate_transformation_hash_map
      [Operand.Char ⟨'a', CharRepetition.N 2⟩] [lit1 'x']) = true := by
  obtain ⟨aidx, s2x, flat2, m, h₁, h₂, h₃, h₄, h₅, h₆⟩ :=
    c5_set2_extension [Operand.Char ⟨'a', CharRepetition.N 2⟩] [lit1 'x']
      (by decide) (by decide) (by decide) (by decide) (by decide) (by decide)
  rw [h₆]
  rfl

/-- Values produced by parseUIntRadix are bounded by maxVal. -/
theorem parseUIntRadix_le (radix maxVal : Nat) (s : List Char) (n : Nat)
    (h : parseUIntRadix radix maxVal s = some n) : n ≤ maxVal := by
  unfold parseUIntRadix at h
  simp only at h
  split at h
  · exact absurd h (by simp)
  · split at h
    · exact absurd h (by simp)
    · split at h
      · cases h
        assumption
      · exact absurd h (by simp)

/-- Operands produced by parse_repeated_char are well-formed: the
AsManyAsNeeded marker, or a fixed count that is nonzero (zero became the
marker) and fits in usize (from_str_radix rejects larger values). -/
theorem parse_repeated_char_wf (vec : List Char) (op : Operand)
    (h : parse_repeated_char vec = Except.ok op) : operandWF op = true := by
  unfold parse_repeated_char at h
  simp only at h
  split at h
  · split at h
    · split at h
      · cases h
        rfl
      · split at h
        · cases h
          rfl
        · cases h
          rename_i n hne0 hsome
          have hle := parseUIntRadix_le _ _ _ _ hsome
          have hne2 : n ≠ 0 := fun hh => hne0 hh
          simp only [operandWF, Bool.and_eq_true, decide_eq_true_eq]
          exact ⟨by omega, hle⟩
        · exact absurd h (by simp)
    · exact absurd h (by simp)
  · exact absurd h (by simp)

/-- Operands produced by parse_equiv are Equiv operands, hence
well-formed. -/
theorem parse_equiv_wf (vec : List Char) (ops : List Operand)
    (h : parse_equiv vec = Except.ok ops) : ∀ op ∈ ops, operandWF op = true := by
  unfold parse_equiv at h
  simp only at h
  split at h
  · split at h
    · exact absurd h (by simp)
    · split at h
      · split at h
        · cases h
          intro op hop
          obtain ⟨c, _, rfl⟩ := List.mem_map.mp hop
          rfl
        · exact absurd h (by simp)
      · exact absurd h (by simp)
  · exact absurd h (by simp)

/-- Operands produced by the class expander are Fixed(1) literals, hence
well-formed. -/
theorem expand_character_class_wf (cls : List Char) (ops : List Operand)
    (h : expand_character_class cls = Except.ok ops) : ∀ op ∈ ops, operandWF op = true := by
  unfold expand_character_class at h
  simp only at h
  split at h
  · exact absurd h (by simp)
  · cases h
    intro op hop
    obtain ⟨c, _, rfl⟩ := List.mem_map.mp hop
    rfl

/-- Operands produced by parse_ranges are Fixed(1) literals, hence
well-formed. -/
theorem parse_ranges_wf (s : List Char) (ops : List Operand)
    (h : parse_ranges s = Except.ok ops) : ∀ op ∈ ops, operandWF op = true := by
  unfold parse_ranges at h
  simp only at h
  split at h
  · exact absurd h (by simp)
  · split at h
    · split at h
      · cases h
        intro op hop
        obtain ⟨c2, _, rfl⟩ := List.mem_map.mp hop
        rfl
      · cases h
        intro op hop
        simp at hop
    · split at h
      · split at h
        · cases h
          intro op hop
          obtain ⟨c2, _, rfl⟩ := List.mem_map.mp hop
          rfl
        · exact absurd h (by simp)
      · cases h
        intro op hop
        simp at hop

/-- Operands produced by the bracket-run dispatch are well-formed. -/
theorem parseBracketOps_wf (vec : List Char) (found : Bool) (ops : List Operand)
    (h : parseBracketOps vec found = Except.ok ops) : ∀ op ∈ ops, operandWF op = true := by
  unfold parseBracketOps at h
  split at h
  · split at h
    · exact expand_character_class_wf _ _ h
    · split at h
      · exact parse_equiv_wf _ _ h
      · split at h
        · split at h
          · exact absurd h (by simp)
          · cases h
            intro op hop
            rw [List.mem_singleton] at hop
            subst hop
            exact parse_repeated_char_wf _ _ (by assumption)
        · cases h
          intro op hop
          obtain ⟨c2, _, rfl⟩ := List.mem_map.mp hop
          rfl
  · cases h
    intro op hop
    obtain ⟨c2, _, rfl⟩ := List.mem_map.mp hop
    rfl

/-- Every operand produced by the parse_symbols loop is well-formed: an
Equiv operand, an AsManyAsNeeded Literal, or a fixed Literal whose count
is at least 1 and fits in usize. -/
theorem parse_symbols_fuel_wf :
    ∀ (fuel : Nat) (l : List Char) (ops : List Operand),
    parse_symbols_fuel fuel l = Except.ok ops →
    ∀ op ∈ ops, operandWF op = true := by
  intro fuel
  induction fuel with
  | zero =>
    intro l ops h
    simp [parse_symbols_fuel] at h
  | succ f ih =>
    intro l ops h
    match l with
    | [] =>
      simp only [parse_symbols_fuel] at h
      cases h
      intro op hop
      simp at hop
    | c :: rest =>
      rw [parse_symbols_fuel.eq_def] at h
      simp only at h
      split at h
      · split at h
        · exact absurd h (by simp)
        · split at h
          · exact absurd h (by simp)
          · cases h
            intro op hop
            rcases List.mem_append.mp hop with hmem | hmem
            · exact parseBracketOps_wf _ _ _ (by assumption) op hmem
            · exact ih _ _ (by assumption) op hmem
      · split at h
        · split at h
          · cases h
            intro op hop
            rw [List.mem_singleton] at hop
            subst hop
            rfl
          · split at h
            · split at h
              · split at h
                · exact absurd h (by simp)
                · cases h
                  intro op hop
                  rcases List.mem_cons.mp hop with hmem | hmem
                  · subst hmem
                    rfl
                  · exact ih _ _ (by assumption) op hmem
              · exact absurd h (by simp)
            · split at h
              · exact absurd h (by simp)
              · cases h
                intro op hop
                rcases List.mem_cons.mp hop with hmem | hmem
                · subst hmem
                  rfl
                · exact ih _ _ (by assumption) op hmem
        · split at h
          · exact absurd h (by simp)
          · cases h
            intro op hop
            rcases List.mem_cons.mp hop with hmem | hmem
            · subst hmem
              rfl
            · exact ih _ _ (by assumption) op hmem

/-- Every operand produced by set parsing is well-formed. -/
theorem parse_string1_or_string2_wf (s : List Char) (ops : List Operand)
    (h : parse_string1_or_string2 s = Except.ok ops) : ∀ op ∈ ops, operandWF op = true := by
  unfold parse_string1_or_string2 at h
  split at h
  · exact parse_ranges_wf _ _ h
  · exact parse_symbols_fuel_wf _ _ _ h

/-- The wrapping usize decrement agrees with plain subtraction on
counters in [1, usize::MAX]. -/
theorem usizeSub1_eq_sub (n : Nat) (h1 : 1 ≤ n) (h2 : n ≤ USIZE_MAX) :
    usizeSub1 n = n - 1 := by
  have hmax : USIZE_MAX = 18446744073709551615 := by norm_num [USIZE_MAX]
  unfold usizeSub1
  rw [hmax] at h2 ⊢
  omega

/-- One complement step: under the counter invariant (every counter from
the cursor onward is in [1, usize::MAX]), the checked step agrees with
the source's wrapping step, and a successful step preserves the
invariant. -/
theorem complementStep_checked_eq (chars1 chars2 : List Operand) (d0 : List Nat)
    (hd0 : ∀ v ∈ d0, 1 ≤ v ∧ v ≤ USIZE_MAX) (hd0len : d0.length = chars2.length)
    (st : ComplState) (ch : Char)
    (hlen : st.depleted.length = chars2.length)
    (hinv : ∀ j v, st.idx ≤ j → st.depleted[j]? = some v → 1 ≤ v ∧ v ≤ USIZE_MAX) :
    complementStepChecked chars1 chars2 d0 st ch =
      complementStep chars1 chars2 d0 st ch ∧
    (∀ st2 out, complementStep chars1 chars2 d0 st ch = Except.ok (st2, out) →
      st2.depleted.length = chars2.length ∧
      ∀ j v, st2.idx ≤ j → st2.depleted[j]? = some v → 1 ≤ v ∧ v ≤ USIZE_MAX) := by
  obtain ⟨depleted, idx⟩ := st
  simp only at hlen hinv
  unfold complementStep complementStepChecked
  simp only
  by_cases hmem : operandsContains chars1 ch = true
  · rw [if_pos hmem, if_pos hmem]
    refine ⟨rfl, ?_⟩
    intro st2 out hstep
    cases hstep
    exact ⟨hlen, hinv⟩
  · rw [if_neg hmem, if_neg hmem]
    cases hop : chars2[idx]? with
    | none =>
      exact ⟨rfl, by intro st2 out hstep; exact absurd hstep (by simp)⟩
    | some op =>
      match op with
      | Operand.Char c =>
        have hidxlt : idx < chars2.length := by
          by_contra hge
          rw [List.getElem?_eq_none (by omega)] at hop
          cases hop
        have hdeplt : idx < depleted.length := by omega
        have hcnt : depleted[idx]? = some depleted[idx] := List.getElem?_eq_getElem hdeplt
        have hbnd := hinv idx depleted[idx] (Nat.le_refl idx) hcnt
        simp only
        rw [hcnt]
        simp only
        rw [if_neg (show ¬ depleted[idx] = 0 by omega)]
        rw [usizeSub1_eq_sub depleted[idx] hbnd.1 hbnd.2]
        refine ⟨rfl, ?_⟩
        intro st2 out hstep
        split at hstep
        · cases hstep
          refine ⟨by simpa using hlen, ?_⟩
          intro j v hle hj
          by_cases hji : j = idx
          · subst hji
            rw [List.getElem?_set_self hdeplt] at hj
            cases hj
            constructor
            · omega
            · have := hbnd.2
              omega
          · rw [List.getElem?_set_ne (fun hh => hji hh.symm)] at hj
            exact hinv j v hle hj
        · split at hstep
          · cases hstep
            refine ⟨hd0len, ?_⟩
            intro j v _ hj
            exact hd0 v (List.getElem?_mem hj)
          · cases hstep
            refine ⟨by simpa using hlen, ?_⟩
            intro j v hle hj
            simp only at hle hj
            have hji : j ≠ idx := by omega
            rw [List.getElem?_set_ne (fun hh => hji hh.symm)] at hj
            exact hinv j v (by omega) hj
      | Operand.Equiv eqv =>
        simp only
        refine ⟨trivial, ?_⟩
        intro st2 out hstep
        split at hstep
        · cases hstep
          refine ⟨hd0len, ?_⟩
          intro j v _ hj
          simp only at hj
          exact hd0 v (List.getElem?_mem hj)
        · cases hstep
          refine ⟨hlen, ?_⟩
          intro j v hle hj
          simp only at hle hj
          exact hinv j v (by omega) hj

/-- The whole checked complement scan agrees with the source's wrapping
scan under the counter invariant. -/
theorem complementGo_checked_eq (chars1 chars2 : List Operand) (d0 : List Nat)
    (hd0 : ∀ v ∈ d0, 1 ≤ v ∧ v ≤ USIZE_MAX) (hd0len : d0.length = chars2.length) :
    ∀ (input : List Char) (st : ComplState),
    st.depleted.length = chars2.length →
    (∀ j v, st.idx ≤ j → st.depleted[j]? = some v → 1 ≤ v ∧ v ≤ USIZE_MAX) →
    complementGoChecked chars1 chars2 d0 input st =
      complementGo chars1 chars2 d0 input st := by
  intro input
  induction input with
  | nil => intro st _ _; rfl
  | cons ch rest ih =>
    intro st hlen hinv
    obtain ⟨hstepeq, hpres⟩ := complementStep_checked_eq chars1 chars2 d0 hd0 hd0len
      st ch hlen hinv
    rw [complementGo, complementGoChecked, hstepeq]
    cases hstep : complementStep chars1 chars2 d0 st ch with
    | error e => rfl
    | ok p =>
      obtain ⟨st2, out⟩ := p
      obtain ⟨hlen2, hinv2⟩ := hpres st2 out hstep
      simp only
      rw [ih st2 hlen2 hinv2]

/-- Initial depletion counters of a well-formed set2 are in
[1, usize::MAX]. -/
theorem initialDepleted_bounds (chars2 : List Operand)
    (hwf : ∀ op ∈ chars2, operandWF op = true) :
    ∀ v ∈ initialDepleted chars2, 1 ≤ v ∧ v ≤ USIZE_MAX := by
  intro v hv
  obtain ⟨op, hop, heq⟩ := List.mem_map.mp hv
  have hops := hwf op hop
  match op with
  | Operand.Char { char := c, char_repetition := CharRepetition.N n } =>
    simp only at heq
    subst heq
    simp only [operandWF, Bool.and_eq_true, decide_eq_true_eq] at hops
    exact hops
  | Operand.Char { char := c, char_repetition := CharRepetition.AsManyAsNeeded } =>
    simp only at heq
    subst heq
    exact ⟨by norm_num [USIZE_MAX], Nat.le_refl _⟩
  | Operand.Equiv e =>
    simp only at heq
    subst heq
    exact ⟨by norm_num [USIZE_MAX], Nat.le_refl _⟩

/-- C9: every operand a successful set parse produces is well-formed —
an Equiv operand, an AsManyAsNeeded Literal, or a fixed Literal with
count in [1, usize::MAX]; consequently the complement engine's unchecked
counter decrement never underflows on a parser-produced SET2: the
underflow-checked engine computes exactly the same result as the
source's wrapping engine, for every input and SET1. -/
theorem c9_parser_wf_no_underflow (s : List Char) (ops : List Operand)
    (hparse : parse_string1_or_string2 s = Except.ok ops) :
    (∀ op ∈ ops, operandWF op = true) ∧
    ∀ (input : List Char) (chars1 : List Operand),
      complement_chars_checked input chars1 ops = complement_chars input chars1 ops := by
  have hwf := parse_string1_or_string2_wf s ops hparse
  refine ⟨hwf, ?_⟩
  intro input chars1
  unfold complement_chars_checked complement_chars
  have hbounds := initialDepleted_bounds ops hwf
  have hlen : (initialDepleted ops).length = ops.length := List.length_map _ _
  exact complementGo_checked_eq chars1 ops (initialDepleted ops) hbounds hlen input
    { depleted := initialDepleted ops, idx := 0 } hlen
    (fun j v _ hj => hbounds v (List.getElem?_mem hj))

/-- Closed witness for the C9 theorem: the checked and wrapping engines
agree on a parser-produced SET2. -/
theorem c9_parser_wf_no_underflow_witness :
    complement_chars_checked "zz".toList [lit1 'a'] [lit1 'a', lit1 'b'] =
      complement_chars "zz".toList [lit1 'a'] [lit1 'a', lit1 'b'] :=
  (c9_parser_wf_no_underflow "ab".toList [lit1 'a', lit1 'b'] rfl).2 "zz".toList [lit1 'a']
